import Mathlib

/-!
Shallow embedding of the Bing Translate UI Overhaul userscript
(`src/Bing-Translate-UI-Overhaul.js`), for verifying the repository's
natural-language specification.

Strings are modelled as `List Char`.  JavaScript whitespace (`\s`, `trim`)
is modelled by `isJsSpace`, which covers the ECMAScript WhiteSpace and
LineTerminator character set.  Regular-expression operations of the script
(`<br>` replacement, sentence segmentation, `\.\s+` replacement) are
modelled by direct recursive scans with the same left-to-right,
leftmost-match semantics.
-/

namespace Bing

/-- ECMAScript whitespace (`\s` character class and `String.prototype.trim`):
tab, LF, VT, FF, CR, space, NBSP, Ogham space, the U+2000..U+200A range,
LS, PS, NNBSP, MMSP, ideographic space and BOM. -/
def isJsSpace (c : Char) : Bool :=
  c == '\t' || c == '\n' || c.toNat == 0x0B || c.toNat == 0x0C || c == '\r' ||
  c == ' ' || c.toNat == 0xA0 || c.toNat == 0x1680 ||
  (0x2000 ≤ c.toNat && c.toNat ≤ 0x200A) ||
  c.toNat == 0x2028 || c.toNat == 0x2029 || c.toNat == 0x202F ||
  c.toNat == 0x205F || c.toNat == 0x3000 || c.toNat == 0xFEFF

/-- `String.prototype.trimStart`. -/
def trimLeft (s : List Char) : List Char := s.dropWhile isJsSpace

/-- `String.prototype.trimEnd`. -/
def trimRight (s : List Char) : List Char := (s.reverse.dropWhile isJsSpace).reverse

/-- `String.prototype.trim`. -/
def trim (s : List Char) : List Char := trimRight (trimLeft s)

/-- Sentence terminators of the output-segmentation regex `[^.!?]+(?:[.!?]+|$)`. -/
def isTerm (c : Char) : Bool := c == '.' || c == '!' || c == '?'

/-- `String.prototype.split('\n')`: `[] ↦ [""]`, separators delimit fields. -/
def splitNl : List Char → List (List Char)
  | [] => [[]]
  | c :: cs =>
    if c = '\n' then [] :: splitNl cs
    else
      match splitNl cs with
      | [] => [[c]]
      | l :: ls => (c :: l) :: ls

/-- `Array.prototype.join('\n')`. -/
def joinNl : List (List Char) → List Char
  | [] => []
  | [x] => x
  | x :: y :: xs => x ++ '\n' :: joinNl (y :: xs)

/-- The closing part `\/?>` of the `<br>` regex, applied after `\s*` has
been consumed; returns the remainder after the closing bracket. -/
def brClose : List Char → Option (List Char)
  | x :: xs =>
    if x == '>' then some xs
    else if x == '/' then
      match xs with
      | y :: ys => if y == '>' then some ys else none
      | [] => none
    else none
  | [] => none

/-- One attempted match of the case-insensitive regex `<br\s*\/?>` at the
head of the list; returns the remainder after the matched tag. -/
def matchBr (s : List Char) : Option (List Char) :=
  match s with
  | c :: b :: r :: rest =>
    if c == '<' && (b == 'b' || b == 'B') && (r == 'r' || r == 'R') then
      brClose (rest.dropWhile isJsSpace)
    else none
  | _ => none

/-- Global replacement `inputHTML.replace(/<br\s*\/?>/gi, '\n')`, by a
left-to-right scan.  The fuel argument (instantiated with the input
length, which bounds the number of scan steps) makes the recursion
structural. -/
def replaceBrFuel : Nat → List Char → List Char
  | _, [] => []
  | 0, s => s
  | n + 1, c :: cs =>
    match matchBr (c :: cs) with
    | some rest => '\n' :: replaceBrFuel n rest
    | none => c :: replaceBrFuel n cs

/-- `inputHTML.replace(/<br\s*\/?>/gi, '\n')`. -/
def replaceBr (s : List Char) : List Char := replaceBrFuel s.length s

/-- Global matching of `/[^.!?]+(?:[.!?]+|$)/g` with structural fuel:
leftmost matches are maximal blocks of one or more non-terminator
characters followed by the maximal run of terminators; characters before
the first such block (a leading terminator run) belong to no match. -/
def rawSegmentsFuel : Nat → List Char → List (List Char)
  | 0, _ => []
  | n + 1, s =>
    match s.dropWhile isTerm with
    | [] => []
    | c :: cs =>
      let a := (c :: cs).takeWhile (fun x => !isTerm x)
      let r := (c :: cs).dropWhile (fun x => !isTerm x)
      (a ++ r.takeWhile isTerm) :: rawSegmentsFuel n (r.dropWhile isTerm)

/-- The raw match list of `trimmedOutputText.match(/[^.!?]+(?:[.!?]+|$)/g)`
(`null` is represented by `[]`). -/
def rawSegments (s : List Char) : List (List Char) := rawSegmentsFuel s.length s

/-- Output segmentation of `processTranslationLineBreaks` (lines 188-203):
trim the output text; if non-empty, split into sentences with
`match(/[^.!?]+(?:[.!?]+|$)/g) || [trimmedOutputText]`, trim each piece and
drop empty pieces; the final safety net substitutes `[trimmedOutputText]`
if the list is still empty. -/
def segmentOutput (outputText : List Char) : List (List Char) :=
  let t := trim outputText
  let segs0 : List (List Char) :=
    if 0 < t.length then
      let m := rawSegments t
      let m2 := if m = [] then [t] else m
      (m2.map trim).filter (fun x => 0 < x.length)
    else []
  if segs0 = [] ∧ 0 < t.length then [t] else segs0

/-- The correlation loop (lines 205-223): walk the input lines; a blank
line contributes `''`; a non-blank line consumes the next output segment,
or contributes `''` with a logged alignment-mismatch warning when the
segments are exhausted.  Returns the restored array, the unconsumed
segments (those past `outputIndex`), and the number of mismatch warnings. -/
def correlate : List (List Char) → List (List Char) →
    List (List Char) × List (List Char) × Nat
  | [], segs => ([], segs, 0)
  | line :: ls, segs =>
    if trim line = [] then
      let p := correlate ls segs
      ([] :: p.1, p.2)
    else
      match segs with
      | seg :: srest =>
        let p := correlate ls srest
        (seg :: p.1, p.2)
      | [] =>
        let p := correlate ls []
        ([] :: p.1, p.2.1, p.2.2 + 1)

/-- Whether a string matches `/\s$/`. -/
def endsWithSpace (s : List Char) : Bool :=
  match s.getLast? with
  | some c => isJsSpace c
  | none => false

/-- Whether a string matches `/^\s/`. -/
def startsWithSpace (s : List Char) : Bool :=
  match s.head? with
  | some c => isJsSpace c
  | none => false

/-- The careful concatenation of lines 233-239: insert a single space
between the accumulated line and the appended segment unless one of them
is empty, the line already ends in whitespace, or the segment starts with
whitespace. -/
def carefulConcat (acc seg : List Char) : List Char :=
  if 0 < acc.length ∧ 0 < seg.length ∧
      endsWithSpace acc = false ∧ startsWithSpace seg = false then
    acc ++ ' ' :: seg
  else acc ++ seg

/-- Scan a reversed restored array for the first (in reverse order, i.e.
last) non-empty entry and append the segment to it; `none` when every
entry is empty (`foundSpot` stays false). -/
def appendRev (seg : List Char) : List (List Char) → Option (List (List Char))
  | [] => none
  | x :: xs =>
    if x ≠ [] then some (carefulConcat x seg :: xs)
    else (appendRev seg xs).map (fun ys => x :: ys)

/-- One iteration of the extra-segment loop (lines 227-249): append the
segment to the last non-empty entry, or push it as a new line when all
entries are empty. -/
def appendExtra (arr : List (List Char)) (seg : List Char) : List (List Char) :=
  match appendRev seg arr.reverse with
  | some revd => revd.reverse
  | none => arr ++ [seg]

/-- The whole extra-segment loop: fold `appendExtra` over the unconsumed
segments. -/
def appendExtras (arr : List (List Char)) : List (List Char) → List (List Char)
  | [] => arr
  | seg :: rest => appendExtras (appendExtra arr seg) rest

/-- Global replacement `line.replace(/\.\s+/g, '.')` by a left-to-right
scan with structural fuel: each dot followed by a maximal non-empty
whitespace run keeps the dot and drops the run. -/
def fixDotSpaceFuel : Nat → List Char → List Char
  | _, [] => []
  | 0, s => s
  | n + 1, c :: cs =>
    if c = '.' ∧ startsWithSpace cs then
      '.' :: fixDotSpaceFuel n (cs.dropWhile isJsSpace)
    else c :: fixDotSpaceFuel n cs

/-- `line.replace(/\.\s+/g, '.')`. -/
def fixDotSpace (s : List Char) : List Char := fixDotSpaceFuel s.length s

/-- The email post-processing of lines 254-259 applied to one line:
`if (line.includes('@')) line = line.replace(/\.\s+/g, '.')`. -/
def emailFixLine (line : List Char) : List Char :=
  if '@' ∈ line then fixDotSpace line else line

/-- Lines of the input region: replace `<br>` tags by newlines, then split
on newlines (lines 176-178). -/
def inputLinesOf (inputHTML : List Char) : List (List Char) :=
  splitNl (replaceBr inputHTML)

/-- The restored output array after the correlation loop and the
extra-segment loop (lines 205-249). -/
def restoredArrayOf (inputHTML outputText : List Char) : List (List Char) :=
  let p := correlate (inputLinesOf inputHTML) (segmentOutput outputText)
  appendExtras p.1 p.2.1

/-- The processed output computed by the non-blank branch of
`processTranslationLineBreaks` (lines 187-260): restored array joined on
newlines, re-split on newlines, email-fixed per line, re-joined. -/
def processedOutputOf (inputHTML outputText : List Char) : List Char :=
  let restored := restoredArrayOf inputHTML outputText
  let finalLines := splitNl (joinNl restored)
  joinNl (finalLines.map emailFixLine)

/-- The DOM state read by `processTranslationLineBreaks`: `innerHTML` of
`#tta_input_ta` and `innerText` of `#tta_output_ta`; `none` means the
element is absent from the page. -/
structure DomState where
  inputHTML : Option (List Char)
  outputText : Option (List Char)
deriving DecidableEq

/-- The two strings retained across invocations
(`lastProcessedInputHTML`, `lastProcessedOutputText`). -/
structure ScriptState where
  lastProcessedInputHTML : List Char
  lastProcessedOutputText : List Char
deriving DecidableEq

/-- Observable effect of one invocation of `processTranslationLineBreaks`:
the retained state afterwards; the text written to the output node (`none`
when `outputDiv.innerText` is not assigned); whether
`triggerOutputEvents` ran (it runs exactly after a write); whether a
501-free retry was scheduled via `setTimeout(..., 500)`; and the counts of
the two `console.warn` messages (alignment mismatch, extra-segment
append). -/
structure ProcResult where
  state : ScriptState
  written : Option (List Char)
  eventsDispatched : Bool
  retryDelayMs : Option Nat
  mismatchWarnings : Nat
  extraWarnings : Nat
deriving DecidableEq

/-- One invocation of `processTranslationLineBreaks` (lines 158-265) as a
function of the retained state and the DOM state it reads. -/
def processTranslationLineBreaks (st : ScriptState) (dom : DomState) : ProcResult :=
  match dom.inputHTML, dom.outputText with
  | some currentInputHTML, some currentOutputText =>
    if currentInputHTML = st.lastProcessedInputHTML ∧
        currentOutputText = st.lastProcessedOutputText then
      ⟨st, none, false, none, 0, 0⟩
    else
      let st2 : ScriptState := ⟨currentInputHTML, currentOutputText⟩
      let inputLines := inputLinesOf currentInputHTML
      if inputLines.all (fun l => trim l = []) then
        if currentOutputText ≠ [] then ⟨st2, some [], true, none, 0, 0⟩
        else ⟨st2, none, false, none, 0, 0⟩
      else
        let segs := segmentOutput currentOutputText
        let p := correlate inputLines segs
        let processed := processedOutputOf currentInputHTML currentOutputText
        if currentOutputText ≠ processed then
          ⟨st2, some processed, true, none, p.2.2, p.2.1.length⟩
        else ⟨st2, none, false, none, p.2.2, p.2.1.length⟩
  | _, _ => ⟨st, none, false, some 500, 0, 0⟩

/-- The text of the output node after an invocation: the written text, or
the unchanged current text. -/
def nodeTextAfter (r : ProcResult) (currentOutputText : List Char) : List Char :=
  match r.written with
  | some t => t
  | none => currentOutputText

/-- Environment of `copyPlainText`: whether
`navigator.clipboard && navigator.clipboard.writeText` is available, and
whether the `writeText` promise resolves. -/
structure ClipboardEnv where
  clipboardAPIPresent : Bool
  writeSucceeds : Bool
deriving DecidableEq

/-- A copy mechanism: the Clipboard API, or the legacy
textarea-plus-execCommand fallback of `fallbackCopyText`. -/
inductive CopyMethod where
  | clipboardAPI
  | execCommandFallback
deriving DecidableEq

/-- `copyPlainText` (lines 29-38): the sequence of copy attempts, each
carrying the text it is given.  The Clipboard API is used when present; on
rejection the catch handler logs and invokes `fallbackCopyText`; when
absent, `fallbackCopyText` is invoked directly.  All failure paths are
caught, so the function always returns. -/
def copyPlainText (env : ClipboardEnv) (text : List Char) :
    List (CopyMethod × List Char) :=
  if env.clipboardAPIPresent then
    if env.writeSucceeds then [(CopyMethod.clipboardAPI, text)]
    else [(CopyMethod.clipboardAPI, text), (CopyMethod.execCommandFallback, text)]
  else [(CopyMethod.execCommandFallback, text)]

/-- The `"Casual"` tone string. -/
def casualTone : List Char := 'C' :: 'a' :: 's' :: 'u' :: 'a' :: 'l' :: []

/-- The `"Formal"` tone string. -/
def formalTone : List Char := 'F' :: 'o' :: 'r' :: 'm' :: 'a' :: 'l' :: []

/-- The tone requested by the Alt+A branch (lines 104-111) as a function
of the current value of `#tta_tonesl`: `Casual ↦ Formal`, `Formal ↦
Casual`, anything else (such as `Standard`) defaults to `Casual`. -/
def toneToggleTarget (current : List Char) : List Char :=
  if current = casualTone then formalTone
  else if current = formalTone then casualTone
  else casualTone

/-- `selectTone` (lines 405-421) on the value of `#tta_tonesl` (`none`
when the element is absent): returns the element value afterwards and
whether a `change` event was dispatched.  When the requested tone is
already selected, the value is left unchanged and no event is
dispatched. -/
def selectTone (toneValue : Option (List Char)) (toneText : List Char) :
    Option (List Char) × Bool :=
  match toneValue with
  | none => (none, false)
  | some v => if v = toneText then (some v, false) else (some toneText, true)

/-- The effect of one Alt+A press on the tone value when the tone element
is present: `selectTone` applied to the toggle target. -/
def altAToneStep (v : List Char) : Option (List Char) × Bool :=
  selectTone (some v) (toneToggleTarget v)

/-- A keyboard event as read by `handleKeydown`: the `altKey` modifier
flag and the `key` string. -/
structure KeyEvent where
  altKey : Bool
  key : List Char
deriving DecidableEq

/-- Page state read by `handleKeydown`: the translated text (`innerText`
of `#tta_output_ta`, `none` when absent), whether `div#tta_revIcon`
exists, and the value of `#tta_tonesl` (`none` when absent). -/
structure PageEnv where
  translatedText : Option (List Char)
  swapButtonPresent : Bool
  toneValue : Option (List Char)
deriving DecidableEq

/-- An observable page action taken by `handleKeydown`. -/
inductive PageAction where
  | copyText (t : List Char)
  | clickSwap
  | setToneRequest (t : List Char)
  | warnToneMissing
deriving DecidableEq

/-- Result of one `handleKeydown` call: the actions performed, in order,
and whether `event.preventDefault()` was called. -/
structure KeyResult where
  actions : List PageAction
  preventDefaultCalled : Bool
deriving DecidableEq

/-- The `key` string `"z"`. -/
def zKey : List Char := ['z']

/-- The `key` string `"s"`. -/
def sKey : List Char := ['s']

/-- The `key` string `"a"`. -/
def aKey : List Char := ['a']

/-- `handleKeydown` (lines 81-116): three independent `if` blocks for
Alt+Z (copy the trimmed translated text when it is non-empty), Alt+S
(click the swap button when present) and Alt+A (toggle the tone, warning
when the tone element is missing); each block calls `preventDefault`. -/
def handleKeydown (env : PageEnv) (ev : KeyEvent) : KeyResult :=
  let zHit := ev.altKey = true ∧ ev.key = zKey
  let sHit := ev.altKey = true ∧ ev.key = sKey
  let aHit := ev.altKey = true ∧ ev.key = aKey
  let zActs : List PageAction :=
    if zHit then
      match env.translatedText with
      | some t => if t ≠ [] then [PageAction.copyText (trim t)] else []
      | none => []
    else []
  let sActs : List PageAction :=
    if sHit then
      if env.swapButtonPresent then [PageAction.clickSwap] else []
    else []
  let aActs : List PageAction :=
    if aHit then
      match env.toneValue with
      | some v => [PageAction.setToneRequest (toneToggleTarget v)]
      | none => [PageAction.warnToneMissing]
    else []
  { actions := zActs ++ sActs ++ aActs,
    preventDefaultCalled :=
      decide zHit || decide sHit || decide aHit }

/-- Number of input lines whose trim is non-empty (the lines that consume
output segments). -/
def nonBlankCount : List (List Char) → Nat
  | [] => 0
  | l :: ls => (if trim l = [] then 0 else 1) + nonBlankCount ls

/-- The entries of a value list sitting at the non-blank positions of a
line list, in order. -/
def maskNonBlank : List (List Char) → List (List Char) → List (List Char)
  | [], _ => []
  | _, [] => []
  | l :: ls, x :: xs =>
    if trim l = [] then maskNonBlank ls xs else x :: maskNonBlank ls xs

/-- No dot directly followed by a whitespace character (so that the
`\.\s+` replacement has nothing to match). -/
def noDotSpace : List Char → Bool
  | [] => true
  | [_] => true
  | c :: d :: rest => (!(c == '.' && isJsSpace d)) && noDotSpace (d :: rest)

theorem dropWhile_idem (p : Char → Bool) (l : List Char) :
    (l.dropWhile p).dropWhile p = l.dropWhile p := by
  induction l with
  | nil => rfl
  | cons c cs ih =>
    by_cases h : p c
    · simp [List.dropWhile_cons, h, ih]
    · simp [List.dropWhile_cons, h]

theorem trimRight_prefix (s : List Char) : trimRight s <+: s := by
  unfold trimRight
  conv_rhs => rw [← List.reverse_reverse s]
  exact List.reverse_prefix.mpr (List.dropWhile_suffix _)

theorem trimLeft_head_not_space (s : List Char) (c : Char)
    (h : (trimLeft s).head? = some c) : isJsSpace c = false := by
  have := List.head?_dropWhile_not isJsSpace s
  unfold trimLeft at h
  rw [h] at this
  simpa using this

theorem trimLeft_of_head_not_space (s : List Char)
    (h : ∀ c, s.head? = some c → isJsSpace c = false) : trimLeft s = s := by
  cases s with
  | nil => rfl
  | cons c cs =>
    have := h c rfl
    simp [trimLeft, List.dropWhile_cons, this]

theorem trimRight_idem (s : List Char) : trimRight (trimRight s) = trimRight s := by
  unfold trimRight
  rw [List.reverse_reverse, dropWhile_idem]

theorem trim_idem (s : List Char) : trim (trim s) = trim s := by
  unfold trim
  have h1 : trimLeft (trimRight (trimLeft s)) = trimRight (trimLeft s) := by
    apply trimLeft_of_head_not_space
    intro c hc
    have hpre := trimRight_prefix (trimLeft s)
    have hhead : (trimLeft s).head? = some c := by
      cases hpre with
      | intro t ht =>
        rw [← ht]
        cases htr : trimRight (trimLeft s) with
        | nil => rw [htr] at hc; simp at hc
        | cons d ds =>
          rw [htr] at hc
          simp at hc
          subst hc
          simp
    exact trimLeft_head_not_space s c hhead
  rw [h1, trimRight_idem]

theorem trim_eq_nil_iff (s : List Char) :
    trim s = [] ↔ ∀ c ∈ s, isJsSpace c := by
  unfold trim trimRight
  constructor
  · intro h c hc
    have h2 : (trimLeft s).reverse.dropWhile isJsSpace = [] := by
      cases he : (trimLeft s).reverse.dropWhile isJsSpace with
      | nil => rfl
      | cons d ds => rw [he] at h; simp at h
    have h3 : ∀ d ∈ (trimLeft s).reverse, isJsSpace d :=
      List.dropWhile_eq_nil_iff.mp h2
    have h4 : ∀ d ∈ trimLeft s, isJsSpace d := by
      intro d hd
      exact h3 d (List.mem_reverse.mpr hd)
    have h5 : s.takeWhile isJsSpace ++ s.dropWhile isJsSpace = s :=
      List.takeWhile_append_dropWhile isJsSpace s
    rw [← h5] at hc
    rcases List.mem_append.mp hc with hc | hc
    · exact List.mem_takeWhile_imp hc
    · exact h4 c hc
  · intro h
    have h2 : trimLeft s = [] := by
      apply List.dropWhile_eq_nil_iff.mpr
      exact h
    rw [h2]
    rfl

theorem splitNl_ne_nil (s : List Char) : splitNl s ≠ [] := by
  induction s with
  | nil => simp [splitNl]
  | cons c cs ih =>
    simp only [splitNl]
    by_cases h : c = '\n'
    · simp [h]
    · rw [if_neg h]
      cases hs : splitNl cs with
      | nil => simp
      | cons l ls => simp

theorem splitNl_no_nl (s : List Char) (h : '\n' ∉ s) : splitNl s = [s] := by
  induction s with
  | nil => rfl
  | cons c cs ih =>
    have hc : ¬ c = '\n' := fun hc => h (hc ▸ List.mem_cons_self c cs)
    have hcs : '\n' ∉ cs := fun hm => h (List.mem_cons_of_mem c hm)
    simp only [splitNl, if_neg hc, ih hcs]

theorem splitNl_append_nl (x r : List Char) (h : '\n' ∉ x) :
    splitNl (x ++ '\n' :: r) = x :: splitNl r := by
  induction x with
  | nil => simp [splitNl]
  | cons c cs ih =>
    have hc : ¬ c = '\n' := fun hc => h (hc ▸ List.mem_cons_self c cs)
    have hcs : '\n' ∉ cs := fun hm => h (List.mem_cons_of_mem c hm)
    simp only [List.cons_append, splitNl, if_neg hc, List.append_eq, ih hcs]

theorem splitNl_joinNl (xs : List (List Char)) (hne : xs ≠ [])
    (h : ∀ x ∈ xs, '\n' ∉ x) : splitNl (joinNl xs) = xs := by
  induction xs with
  | nil => exact absurd rfl hne
  | cons x t ih =>
    cases t with
    | nil =>
      simp only [joinNl]
      exact splitNl_no_nl x (h x (List.mem_cons_self x []))
    | cons y t2 =>
      simp only [joinNl]
      rw [splitNl_append_nl _ _ (h x (List.mem_cons_self x _))]
      congr 1
      exact ih (by simp) (fun z hz => h z (List.mem_cons_of_mem x hz))

theorem correlate_length (ls segs : List (List Char)) :
    (correlate ls segs).1.length = ls.length := by
  induction ls generalizing segs with
  | nil => rfl
  | cons l t ih =>
    simp only [correlate]
    by_cases hb : trim l = []
    · simp [hb, ih]
    · rw [if_neg hb]
      cases segs with
      | nil => simp [ih]
      | cons s srest => simp [ih]

theorem correlate_blank (ls segs : List (List Char)) :
    List.Forall₂ (fun l x => trim l = [] → x = []) ls (correlate ls segs).1 := by
  induction ls generalizing segs with
  | nil => exact List.Forall₂.nil
  | cons l t ih =>
    simp only [correlate]
    by_cases hb : trim l = []
    · rw [if_pos hb]
      exact List.Forall₂.cons (fun _ => rfl) (ih segs)
    · rw [if_neg hb]
      cases segs with
      | nil => exact List.Forall₂.cons (fun _ => rfl) (ih [])
      | cons s srest => exact List.Forall₂.cons (fun hc => absurd hc hb) (ih srest)

theorem correlate_mask (ls segs : List (List Char)) :
    maskNonBlank ls (correlate ls segs).1 =
      segs.take (nonBlankCount ls) ++
        List.replicate (nonBlankCount ls - segs.length) [] := by
  induction ls generalizing segs with
  | nil => simp [maskNonBlank, nonBlankCount, correlate]
  | cons l t ih =>
    simp only [correlate, nonBlankCount]
    by_cases hb : trim l = []
    · rw [if_pos hb, if_pos hb]
      simp only [maskNonBlank, if_pos hb, Nat.zero_add]
      exact ih segs
    · simp only [if_neg hb]
      cases segs with
      | nil =>
        simp only [maskNonBlank, if_neg hb]
        rw [ih []]
        rw [Nat.add_comm 1 (nonBlankCount t)]
        simp [List.replicate_succ]
      | cons s srest =>
        simp only [maskNonBlank, if_neg hb]
        rw [ih srest]
        rw [Nat.add_comm 1 (nonBlankCount t), List.take_succ_cons, List.length_cons]
        simp only [Nat.succ_sub_succ]
        rfl

theorem correlate_leftover (ls segs : List (List Char)) :
    (correlate ls segs).2.1 = segs.drop (nonBlankCount ls) := by
  induction ls generalizing segs with
  | nil => simp [correlate, nonBlankCount]
  | cons l t ih =>
    simp only [correlate, nonBlankCount]
    by_cases hb : trim l = []
    · simp only [if_pos hb, Nat.zero_add]
      exact ih segs
    · simp only [if_neg hb]
      cases segs with
      | nil =>
        rw [ih []]
        simp
      | cons s srest =>
        rw [ih srest]
        rw [Nat.add_comm 1 (nonBlankCount t)]
        rfl

theorem correlate_warnings (ls segs : List (List Char)) :
    (correlate ls segs).2.2 = nonBlankCount ls - segs.length := by
  induction ls generalizing segs with
  | nil => simp [correlate, nonBlankCount]
  | cons l t ih =>
    simp only [correlate, nonBlankCount]
    by_cases hb : trim l = []
    · simp only [if_pos hb, Nat.zero_add]
      exact ih segs
    · simp only [if_neg hb]
      cases segs with
      | nil =>
        rw [ih []]
        simp
        omega
      | cons s srest =>
        rw [ih srest]
        simp only [List.length_cons]
        omega

theorem correlate_mem (ls segs : List (List Char)) :
    ∀ x ∈ (correlate ls segs).1, x = [] ∨ x ∈ segs := by
  induction ls generalizing segs with
  | nil => simp [correlate]
  | cons l t ih =>
    simp only [correlate]
    by_cases hb : trim l = []
    · rw [if_pos hb]
      intro x hx
      rcases List.mem_cons.mp hx with hx | hx
      · exact Or.inl hx
      · exact ih segs x hx
    · rw [if_neg hb]
      cases segs with
      | nil =>
        intro x hx
        rcases List.mem_cons.mp hx with hx | hx
        · exact Or.inl hx
        · rcases ih [] x hx with hx | hx
          · exact Or.inl hx
          · simp at hx
      | cons s srest =>
        intro x hx
        rcases List.mem_cons.mp hx with hx | hx
        · exact Or.inr (hx ▸ List.mem_cons_self s srest)
        · rcases ih srest x hx with hx | hx
          · exact Or.inl hx
          · exact Or.inr (List.mem_cons_of_mem s hx)

theorem nonBlankCount_eq_zero (ls : List (List Char)) :
    nonBlankCount ls = 0 ↔ ∀ l ∈ ls, trim l = [] := by
  induction ls with
  | nil => simp [nonBlankCount]
  | cons l t ih =>
    simp only [nonBlankCount]
    by_cases hb : trim l = []
    · simp [hb, ih]
    · simp [hb]

theorem correlate_all_blank (ls segs : List (List Char))
    (h : ∀ l ∈ ls, trim l = []) :
    (correlate ls segs).1 = List.replicate ls.length [] := by
  induction ls generalizing segs with
  | nil => rfl
  | cons l t ih =>
    have hb : trim l = [] := h l (List.mem_cons_self l t)
    simp only [correlate, if_pos hb, List.length_cons, List.replicate_succ]
    rw [ih segs (fun x hx => h x (List.mem_cons_of_mem l hx))]

theorem carefulConcat_ne_nil (acc seg : List Char) (h : acc ≠ []) :
    carefulConcat acc seg ≠ [] := by
  unfold carefulConcat
  split <;> simp [h]

theorem appendRev_skip (seg : List Char) (zs : List (List Char))
    (hz : ∀ y ∈ zs, y = []) (x : List Char) (hx : x ≠ []) (w : List (List Char)) :
    appendRev seg (zs ++ x :: w) = some (zs ++ carefulConcat x seg :: w) := by
  induction zs with
  | nil => simp [appendRev, hx]
  | cons z zt ih =>
    have hz0 : z = cast rfl ([] : List Char) := hz z (List.mem_cons_self z zt)
    simp only [List.cons_append, appendRev]
    rw [if_neg (by simp [hz0])]
    simp only [List.append_eq]
    rw [ih (fun y hy => hz y (List.mem_cons_of_mem z hy))]
    rfl

theorem appendExtra_spec (r1 : List (List Char)) (x : List Char)
    (r2 : List (List Char)) (seg : List Char) (hx : x ≠ [])
    (hr2 : ∀ y ∈ r2, y = []) :
    appendExtra (r1 ++ x :: r2) seg = r1 ++ carefulConcat x seg :: r2 := by
  unfold appendExtra
  have hrev : (r1 ++ x :: r2).reverse = r2.reverse ++ x :: r1.reverse := by
    simp
  rw [hrev]
  rw [appendRev_skip seg r2.reverse (fun y hy => hr2 y (List.mem_reverse.mp hy)) x hx]
  simp

theorem appendExtras_spec (r1 : List (List Char)) (x : List Char)
    (r2 : List (List Char)) (es : List (List Char)) (hx : x ≠ [])
    (hr2 : ∀ y ∈ r2, y = []) :
    appendExtras (r1 ++ x :: r2) es = r1 ++ es.foldl carefulConcat x :: r2 := by
  induction es generalizing x with
  | nil => simp [appendExtras]
  | cons e et ih =>
    simp only [appendExtras, List.foldl_cons]
    rw [appendExtra_spec r1 x r2 e hx hr2]
    exact ih (carefulConcat x e) (carefulConcat_ne_nil x e hx)

theorem noDotSpace_tail (c : Char) (cs : List Char)
    (h : noDotSpace (c :: cs) = true) : noDotSpace cs = true := by
  cases cs with
  | nil => rfl
  | cons d ds =>
    simp only [noDotSpace, Bool.and_eq_true] at h
    exact h.2

theorem fixDotSpaceFuel_id (n : Nat) :
    ∀ s, s.length ≤ n → noDotSpace s = true → fixDotSpaceFuel n s = s := by
  induction n with
  | zero =>
    intro s hlen _
    cases s with
    | nil => rfl
    | cons c cs => simp at hlen
  | succ n ih =>
    intro s hlen h
    cases s with
    | nil => rfl
    | cons c cs =>
      have hcond : ¬(c = '.' ∧ startsWithSpace cs = true) := by
        rintro ⟨hc, hs⟩
        cases cs with
        | nil => simp [startsWithSpace] at hs
        | cons d ds =>
          simp only [startsWithSpace, List.head?] at hs
          simp only [noDotSpace, Bool.and_eq_true] at h
          have := h.1
          rw [hc] at this
          simp [hs] at this
      simp only [fixDotSpaceFuel, if_neg hcond]
      simp only [List.length_cons] at hlen
      rw [ih cs (by omega) (noDotSpace_tail c cs h)]

theorem fixDotSpace_id (s : List Char) (h : noDotSpace s = true) :
    fixDotSpace s = s :=
  fixDotSpaceFuel_id s.length s le_rfl h

theorem emailFixLine_id (s : List Char) (h : noDotSpace s = true) :
    emailFixLine s = s := by
  unfold emailFixLine
  split
  · exact fixDotSpace_id s h
  · rfl

theorem emailFixLine_nil : emailFixLine [] = [] := rfl

theorem maskNonBlank_map (f : List Char → List Char)
    (ls rs : List (List Char)) :
    maskNonBlank ls (rs.map f) = (maskNonBlank ls rs).map f := by
  induction ls generalizing rs with
  | nil => simp [maskNonBlank]
  | cons l t ih =>
    cases rs with
    | nil => simp [maskNonBlank]
    | cons r rt =>
      simp only [List.map_cons, maskNonBlank]
      by_cases hb : trim l = []
      · simp only [if_pos hb]
        exact ih rt
      · simp only [if_neg hb, List.map_cons]
        rw [ih rt]

theorem maskNonBlank_append (ls1 ls2 rs1 rs2 : List (List Char))
    (h : rs1.length = ls1.length) :
    maskNonBlank (ls1 ++ ls2) (rs1 ++ rs2) =
      maskNonBlank ls1 rs1 ++ maskNonBlank ls2 rs2 := by
  induction ls1 generalizing rs1 with
  | nil =>
    cases rs1 with
    | nil => simp [maskNonBlank]
    | cons r rt => simp at h
  | cons l t ih =>
    cases rs1 with
    | nil => simp at h
    | cons r rt =>
      simp only [List.length_cons] at h
      simp only [List.cons_append, maskNonBlank]
      by_cases hb : trim l = []
      · simp only [if_pos hb]
        exact ih rt (by omega)
      · simp only [if_neg hb, List.cons_append, List.append_eq]
        rw [ih rt (by omega)]

theorem maskNonBlank_all_blank (ls rs : List (List Char))
    (h : ∀ l ∈ ls, trim l = []) : maskNonBlank ls rs = [] := by
  induction ls generalizing rs with
  | nil => cases rs <;> rfl
  | cons l t ih =>
    cases rs with
    | nil => rfl
    | cons r rt =>
      simp only [maskNonBlank, if_pos (h l (List.mem_cons_self l t))]
      exact ih rt (fun x hx => h x (List.mem_cons_of_mem l hx))

theorem forall₂_map_blank (ls rs : List (List Char))
    (f : List Char → List Char) (hf : f [] = [])
    (h : List.Forall₂ (fun l x => trim l = [] → x = []) ls rs) :
    List.Forall₂ (fun l x => trim l = [] → x = []) ls (rs.map f) := by
  induction h with
  | nil => exact List.Forall₂.nil
  | cons hp hrest ih =>
    refine List.Forall₂.cons (fun hb => ?_) ih
    rename_i a b l1 l2
    rw [hp hb, hf]

theorem forall₂_blank_of_all_nil (ls rs : List (List Char))
    (hlen : rs.length = ls.length) (hall : ∀ y ∈ rs, y = []) :
    List.Forall₂ (fun l x => trim l = [] → x = []) ls rs := by
  induction ls generalizing rs with
  | nil =>
    cases rs with
    | nil => exact List.Forall₂.nil
    | cons r rt => simp at hlen
  | cons l t ih =>
    cases rs with
    | nil => simp at hlen
    | cons r rt =>
      simp only [List.length_cons] at hlen
      refine List.Forall₂.cons (fun _ => hall r (List.mem_cons_self r rt)) ?_
      exact ih rt (by omega) (fun y hy => hall y (List.mem_cons_of_mem r hy))

theorem correlate_split (ls segs : List (List Char))
    (h1 : 1 ≤ nonBlankCount ls) (h2 : nonBlankCount ls ≤ segs.length) :
    ∃ ls1 lk ls2 r1 sLast r2,
      ls = ls1 ++ lk :: ls2 ∧
      ¬(trim lk = []) ∧ (∀ l ∈ ls2, trim l = []) ∧
      segs.drop (nonBlankCount ls - 1) = sLast :: segs.drop (nonBlankCount ls) ∧
      (correlate ls segs).1 = r1 ++ sLast :: r2 ∧
      r1.length = ls1.length ∧ r2.length = ls2.length ∧
      (∀ y ∈ r2, y = []) ∧
      maskNonBlank ls1 r1 = segs.take (nonBlankCount ls - 1) ∧
      List.Forall₂ (fun l x => trim l = [] → x = []) ls1 r1 ∧
      nonBlankCount ls1 = nonBlankCount ls - 1 := by
  induction ls generalizing segs with
  | nil => simp [nonBlankCount] at h1
  | cons l t ih =>
    by_cases hb : trim l = []
    · have hnb : nonBlankCount (l :: t) = nonBlankCount t := by
        simp [nonBlankCount, hb]
      rw [hnb] at h1 h2 ⊢
      obtain ⟨ls1, lk, ls2, r1, sLast, r2, hls, hlk, hls2, hdrop, hcorr, hlen1,
        hlen2, hall, hmask, hfa, hnbc1⟩ := ih segs h1 h2
      refine ⟨l :: ls1, lk, ls2, [] :: r1, sLast, r2, ?_, hlk, hls2, hdrop,
        ?_, ?_, hlen2, hall, ?_, ?_, ?_⟩
      · rw [hls]; rfl
      · simp only [correlate, if_pos hb]
        rw [hcorr]
        try rfl
      · simp [hlen1]
      · simp only [maskNonBlank, if_pos hb]
        exact hmask
      · exact List.Forall₂.cons (fun _ => rfl) hfa
      · simp [nonBlankCount, hb, hnbc1]
    · have hnb : nonBlankCount (l :: t) = 1 + nonBlankCount t := by
        simp [nonBlankCount, hb]
      cases segs with
      | nil =>
        rw [hnb] at h2
        simp at h2
      | cons s srest =>
        by_cases hz : nonBlankCount t = 0
        · have e1 : nonBlankCount (l :: t) - 1 = 0 := by rw [hnb, hz]
          have e2 : nonBlankCount (l :: t) = 1 := by rw [hnb, hz]
          refine ⟨[], l, t, [], s, (correlate t srest).1, rfl, hb,
            (nonBlankCount_eq_zero t).mp hz, ?_, ?_, rfl, ?_, ?_, ?_,
            List.Forall₂.nil, ?_⟩
          · rw [e1, e2]
            simp
          · simp only [correlate, if_neg hb]
            rfl
          · exact correlate_length t srest
          · intro y hy
            rw [correlate_all_blank t srest ((nonBlankCount_eq_zero t).mp hz)] at hy
            exact List.eq_of_mem_replicate hy
          · rw [e1]
            rfl
          · rw [e1]
            rfl
        · have h1t : 1 ≤ nonBlankCount t := by omega
          have h2t : nonBlankCount t ≤ srest.length := by
            rw [hnb] at h2
            simp only [List.length_cons] at h2
            omega
          obtain ⟨ls1, lk, ls2, r1, sLast, r2, hls, hlk, hls2, hdrop, hcorr,
            hlen1, hlen2, hall, hmask, hfa, hnbc1⟩ := ih srest h1t h2t
          obtain ⟨m, hm⟩ : ∃ m, nonBlankCount t = m + 1 :=
            ⟨nonBlankCount t - 1, by omega⟩
          have e1 : nonBlankCount (l :: t) - 1 = m + 1 := by rw [hnb, hm]; omega
          have e2 : nonBlankCount (l :: t) = m + 1 + 1 := by rw [hnb, hm]; omega
          have e3 : nonBlankCount t - 1 = m := by omega
          refine ⟨l :: ls1, lk, ls2, s :: r1, sLast, r2, ?_, hlk, hls2, ?_,
            ?_, ?_, hlen2, hall, ?_, ?_, ?_⟩
          · rw [hls]; rfl
          · rw [e1, e2, List.drop_succ_cons, List.drop_succ_cons]
            rw [e3, hm] at hdrop
            exact hdrop
          · simp only [correlate, if_neg hb]
            rw [hcorr]
            try rfl
          · simp [hlen1]
          · rw [e1]
            simp only [maskNonBlank, if_neg hb]
            rw [List.take_succ_cons]
            rw [e3] at hmask
            rw [hmask]
          · exact List.Forall₂.cons (fun hc => absurd hc hb) hfa
          · simp only [nonBlankCount, if_neg hb]
            rw [hnbc1]
            omega

theorem isTerm_not_space (c : Char) (h : isTerm c = true) :
    isJsSpace c = false := by
  simp only [isTerm, Bool.or_eq_true, beq_iff_eq] at h
  rcases h with (h | h) | h <;> subst h <;> decide

theorem noDotSpace_cons_of_ne_dot (c : Char) (rest : List Char)
    (hc : (c == '.') = false) (h : noDotSpace rest = true) :
    noDotSpace (c :: rest) = true := by
  cases rest with
  | nil => rfl
  | cons d ds =>
    simp only [noDotSpace, Bool.and_eq_true]
    exact ⟨by simp [hc], h⟩

theorem noDotSpace_cons_of_next_not_space (c d : Char) (rest : List Char)
    (hd : isJsSpace d = false) (h : noDotSpace (d :: rest) = true) :
    noDotSpace (c :: d :: rest) = true := by
  simp only [noDotSpace, Bool.and_eq_true]
  exact ⟨by simp [hd], h⟩

theorem noDotSpace_all_term (T : List Char)
    (h : ∀ c ∈ T, isTerm c = true) : noDotSpace T = true := by
  induction T with
  | nil => rfl
  | cons c cs ih =>
    cases cs with
    | nil => rfl
    | cons d ds =>
      refine noDotSpace_cons_of_next_not_space c d ds ?_ ?_
      · exact isTerm_not_space d (h d (List.mem_cons_of_mem c (List.mem_cons_self d ds)))
      · exact ih (fun x hx => h x (List.mem_cons_of_mem c hx))

theorem noDotSpace_parts (A T : List Char)
    (hA : ∀ c ∈ A, isTerm c = false) (hT : ∀ c ∈ T, isTerm c = true) :
    noDotSpace (A ++ T) = true := by
  induction A with
  | nil => exact noDotSpace_all_term T hT
  | cons a A2 ih =>
    refine noDotSpace_cons_of_ne_dot a (A2 ++ T) ?_
      (ih (fun x hx => hA x (List.mem_cons_of_mem a hx)))
    have ha := hA a (List.mem_cons_self a A2)
    by_cases hd : a = '.'
    · subst hd; simp [isTerm] at ha
    · simp [hd]

theorem noDotSpace_append_left (l post : List Char)
    (h : noDotSpace (l ++ post) = true) : noDotSpace l = true := by
  induction l with
  | nil => rfl
  | cons a l2 ih =>
    cases l2 with
    | nil => rfl
    | cons b l3 =>
      simp only [List.cons_append, noDotSpace, Bool.and_eq_true] at h ⊢
      exact ⟨h.1, by
        have := ih (by
          have h2 := h.2
          simpa using h2)
        exact this⟩

theorem noDotSpace_append_right (pre l : List Char)
    (h : noDotSpace (pre ++ l) = true) : noDotSpace l = true := by
  induction pre with
  | nil => exact h
  | cons a pre2 ih =>
    exact ih (noDotSpace_tail a (pre2 ++ l) h)

theorem noDotSpace_trim (s : List Char) (h : noDotSpace s = true) :
    noDotSpace (trim s) = true := by
  have h1 : noDotSpace (trimLeft s) = true := by
    have hsplit : s.takeWhile isJsSpace ++ s.dropWhile isJsSpace = s :=
      List.takeWhile_append_dropWhile isJsSpace s
    have := noDotSpace_append_right (s.takeWhile isJsSpace) (s.dropWhile isJsSpace)
      (by rw [hsplit]; exact h)
    exact this
  obtain ⟨post, hpost⟩ := trimRight_prefix (trimLeft s)
  refine noDotSpace_append_left (trim s) post ?_
  show noDotSpace (trimRight (trimLeft s) ++ post) = true
  rw [hpost]
  exact h1

theorem rawSegmentsFuel_nil (m : Nat) : rawSegmentsFuel m [] = [] := by
  cases m <;> rfl

theorem rawSeg_step_length (s : List Char) (c : Char) (cs : List Char)
    (h : s.dropWhile isTerm = c :: cs) :
    ((((c :: cs).dropWhile (fun x => !isTerm x))).dropWhile isTerm).length <
      s.length := by
  have hc : isTerm c = false := by
    have := List.head?_dropWhile_not isTerm s
    rw [h] at this
    simpa using this
  have h1 : ((c :: cs).dropWhile (fun x => !isTerm x)).length ≤ cs.length := by
    rw [List.dropWhile_cons_of_pos (by simp [hc])]
    exact (List.dropWhile_suffix _).length_le
  have h2 : (((c :: cs).dropWhile (fun x => !isTerm x)).dropWhile isTerm).length ≤
      ((c :: cs).dropWhile (fun x => !isTerm x)).length :=
    (List.dropWhile_suffix _).length_le
  have h3 : (c :: cs).length ≤ s.length := by
    have := (List.dropWhile_suffix isTerm (l := s)).length_le
    rw [h] at this
    exact this
  simp only [List.length_cons] at h3
  omega

theorem rawSegmentsFuel_succ_nil (n : Nat) (s : List Char)
    (hdrop : s.dropWhile isTerm = []) : rawSegmentsFuel (n + 1) s = [] := by
  simp only [rawSegmentsFuel]
  rw [hdrop]

theorem rawSegmentsFuel_succ_cons (n : Nat) (s : List Char) (c : Char)
    (cs : List Char) (hdrop : s.dropWhile isTerm = c :: cs) :
    rawSegmentsFuel (n + 1) s =
      ((c :: cs).takeWhile (fun x => !isTerm x) ++
        ((c :: cs).dropWhile (fun x => !isTerm x)).takeWhile isTerm) ::
      rawSegmentsFuel n (((c :: cs).dropWhile (fun x => !isTerm x)).dropWhile isTerm) := by
  simp only [rawSegmentsFuel]
  rw [hdrop]

theorem rawSegmentsFuel_agnostic (n : Nat) :
    ∀ (m : Nat) (s : List Char), s.length ≤ n → s.length ≤ m →
      rawSegmentsFuel n s = rawSegmentsFuel m s := by
  induction n with
  | zero =>
    intro m s hn _
    have hs : s = [] := by
      cases s with
      | nil => rfl
      | cons c cs => simp at hn
    rw [hs, rawSegmentsFuel_nil, rawSegmentsFuel_nil]
  | succ n ih =>
    intro m s hn hm
    cases s with
    | nil => rw [rawSegmentsFuel_nil, rawSegmentsFuel_nil]
    | cons c0 cs0 =>
      obtain ⟨m2, hm2⟩ : ∃ m2, m = m2 + 1 := by
        cases m with
        | zero => simp at hm
        | succ k => exact ⟨k, rfl⟩
      subst hm2
      cases hdrop : (c0 :: cs0).dropWhile isTerm with
      | nil =>
        rw [rawSegmentsFuel_succ_nil n _ hdrop, rawSegmentsFuel_succ_nil m2 _ hdrop]
      | cons d ds =>
        rw [rawSegmentsFuel_succ_cons n _ d ds hdrop,
          rawSegmentsFuel_succ_cons m2 _ d ds hdrop]
        have hlt := rawSeg_step_length (c0 :: cs0) d ds hdrop
        simp only [List.length_cons] at hn hm hlt
        congr 1
        exact ih m2
          (((d :: ds).dropWhile (fun x => !isTerm x)).dropWhile isTerm)
          (by omega) (by omega)

theorem rawSegmentsFuel_structure (n : Nat) :
    ∀ (s : List Char), ∀ seg ∈ rawSegmentsFuel n s,
      ∃ A T, seg = A ++ T ∧ (∀ c ∈ A, isTerm c = false) ∧
        (∀ c ∈ T, isTerm c = true) := by
  induction n with
  | zero => intro s seg hseg; simp [rawSegmentsFuel] at hseg
  | succ n ih =>
    intro s seg hseg
    simp only [rawSegmentsFuel] at hseg
    cases hdrop : s.dropWhile isTerm with
    | nil => rw [hdrop] at hseg; simp at hseg
    | cons c cs =>
      rw [hdrop] at hseg
      rcases List.mem_cons.mp hseg with hseg | hseg
      · refine ⟨(c :: cs).takeWhile (fun x => !isTerm x),
          ((c :: cs).dropWhile (fun x => !isTerm x)).takeWhile isTerm, hseg, ?_, ?_⟩
        · intro x hx
          have := List.mem_takeWhile_imp hx
          simpa using this
        · intro x hx
          exact List.mem_takeWhile_imp hx
      · exact ih _ seg hseg

theorem rawSegments_structure (s : List Char) :
    ∀ seg ∈ rawSegments s,
      ∃ A T, seg = A ++ T ∧ (∀ c ∈ A, isTerm c = false) ∧
        (∀ c ∈ T, isTerm c = true) :=
  rawSegmentsFuel_structure s.length s

theorem rawSegments_cons_eq (s : List Char) (c : Char) (cs : List Char)
    (hdrop : s.dropWhile isTerm = c :: cs) :
    rawSegments s =
      ((c :: cs).takeWhile (fun x => !isTerm x) ++
        ((c :: cs).dropWhile (fun x => !isTerm x)).takeWhile isTerm) ::
      rawSegments (((c :: cs).dropWhile (fun x => !isTerm x)).dropWhile isTerm) := by
  have hne : s ≠ [] := by
    intro hnil
    rw [hnil] at hdrop
    simp at hdrop
  obtain ⟨k, hk⟩ : ∃ k, s.length = k + 1 := by
    cases s with
    | nil => exact absurd rfl hne
    | cons a t => exact ⟨t.length, by simp⟩
  show rawSegmentsFuel s.length s = _
  rw [hk, rawSegmentsFuel_succ_cons k s c cs hdrop]
  congr 1
  have hlt := rawSeg_step_length s c cs hdrop
  show rawSegmentsFuel k _ = rawSegmentsFuel
    (((c :: cs).dropWhile (fun x => !isTerm x)).dropWhile isTerm).length _
  exact rawSegmentsFuel_agnostic k _ _ (by omega) le_rfl

theorem rawSegments_eq_nil_iff (s : List Char) :
    rawSegments s = [] ↔ s.dropWhile isTerm = [] := by
  constructor
  · intro h
    cases hdrop : s.dropWhile isTerm with
    | nil => rfl
    | cons c cs =>
      rw [rawSegments_cons_eq s c cs hdrop] at h
      simp at h
  · intro h
    show rawSegmentsFuel s.length s = []
    cases hl : s.length with
    | zero => rfl
    | succ k =>
      simp only [rawSegmentsFuel]
      rw [h]

theorem getLast?_mem_of_eq (s : List Char) (c : Char)
    (h : s.getLast? = some c) : c ∈ s := by
  induction s with
  | nil => simp at h
  | cons a t ih =>
    cases t with
    | nil =>
      simp [List.getLast?] at h
      exact h ▸ List.mem_cons_self a []
    | cons b t2 =>
      rw [List.getLast?_cons_cons] at h
      exact List.mem_cons_of_mem a (ih h)

theorem dropWhile_eq_self_head (p : Char → Bool) (l : List Char) (c : Char)
    (tl : List Char) (h : l.dropWhile p = l) (hl : l = c :: tl) :
    p c = false := by
  subst hl
  by_cases hp : p c
  · rw [List.dropWhile_cons_of_pos hp] at h
    have := (List.dropWhile_suffix p (l := tl)).length_le
    rw [h] at this
    simp at this
  · simpa using hp

theorem trimLeft_eq_self_of_trim_eq (s : List Char) (h : trim s = s) :
    trimLeft s = s := by
  have h1 : (trimLeft s).length ≤ s.length :=
    (List.dropWhile_suffix isJsSpace).length_le
  have h2 : (trim s).length ≤ (trimLeft s).length := by
    unfold trim trimRight
    calc ((trimLeft s).reverse.dropWhile isJsSpace).reverse.length
        = ((trimLeft s).reverse.dropWhile isJsSpace).length := by simp
      _ ≤ (trimLeft s).reverse.length :=
          (List.dropWhile_suffix isJsSpace).length_le
      _ = (trimLeft s).length := by simp
  rw [h] at h2
  have hlen : (trimLeft s).length = s.length := by omega
  exact ((List.dropWhile_suffix isJsSpace).sublist).eq_of_length hlen

theorem trimRight_eq_self_of_trim_eq (s : List Char) (h : trim s = s) :
    trimRight s = s := by
  have h1 := trimLeft_eq_self_of_trim_eq s h
  unfold trim at h
  rw [h1] at h
  exact h

theorem getLast_not_space_of_trim_eq (s : List Char) (h : trim s = s)
    (c : Char) (hc : s.getLast? = some c) : isJsSpace c = false := by
  have h1 := trimRight_eq_self_of_trim_eq s h
  unfold trimRight at h1
  have h2 : s.reverse.dropWhile isJsSpace = s.reverse := by
    have := congrArg List.reverse h1
    rwa [List.reverse_reverse] at this
  have h3 : s.reverse.head? = some c := by
    rw [List.head?_reverse]
    exact hc
  cases hrev : s.reverse with
  | nil => rw [hrev] at h3; simp at h3
  | cons d ds =>
    rw [hrev] at h3
    simp at h3
    rw [← h3]
    exact dropWhile_eq_self_head isJsSpace s.reverse d ds h2 hrev

theorem getLast?_of_suffix (a s : List Char) (hsuf : a <:+ s) (ha : a ≠ []) :
    s.getLast? = a.getLast? := by
  obtain ⟨pre, hpre⟩ := hsuf
  rw [← hpre, List.getLast?_append]
  cases hl : a.getLast? with
  | none =>
    exfalso
    cases a with
    | nil => exact ha rfl
    | cons x xs => rw [List.getLast?_eq_getLast _ (by simp)] at hl; simp at hl
  | some c => rfl

theorem takeWhile_eq_self_of_dropWhile_nil (p : Char → Bool) (l : List Char)
    (h : l.dropWhile p = []) : l.takeWhile p = l := by
  have := List.takeWhile_append_dropWhile p l
  rw [h] at this
  simpa using this

theorem rawSegments_exists_keep :
    ∀ (n : Nat) (t : List Char), t.length ≤ n → t ≠ [] →
    (∀ c, t.getLast? = some c → isJsSpace c = false) →
    rawSegments t ≠ [] →
    ∃ raw ∈ rawSegments t, trim raw ≠ [] := by
  intro n
  induction n with
  | zero =>
    intro t hlen hne _ _
    cases t with
    | nil => exact absurd rfl hne
    | cons c cs => simp at hlen
  | succ n ih =>
    intro t hlen hne hlast hm
    cases hdrop : t.dropWhile isTerm with
    | nil => exact absurd ((rawSegments_eq_nil_iff t).mpr hdrop) hm
    | cons c cs =>
      have hseg : rawSegments t =
          ((c :: cs).takeWhile (fun x => !isTerm x) ++
            ((c :: cs).dropWhile (fun x => !isTerm x)).takeWhile isTerm) ::
          rawSegments (((c :: cs).dropWhile (fun x => !isTerm x)).dropWhile isTerm) :=
        rawSegments_cons_eq t c cs hdrop
      set a := (c :: cs).takeWhile (fun x => !isTerm x) with ha
      set r := (c :: cs).dropWhile (fun x => !isTerm x) with hr
      set rest := r.dropWhile isTerm with hrest
      by_cases hrm : rawSegments rest = []
      · -- single-segment case: show the head segment survives trimming
        by_cases htm : r.takeWhile isTerm = []
        · -- no terminator run: r must be empty, segment is the whole suffix
          have hrnil : r = [] := by
            cases hrc : r with
            | nil => rfl
            | cons x xs =>
              have hx : (!isTerm x) = false := by
                have := List.head?_dropWhile_not (fun x => !isTerm x) (c :: cs)
                rw [← hr, hrc] at this
                simpa using this
              have hx2 : isTerm x = true := by
                cases hxx : isTerm x
                · rw [hxx] at hx; simp at hx
                · rfl
              rw [hrc, List.takeWhile_cons_of_pos hx2] at htm
              simp at htm
          have haall : a = c :: cs := by
            rw [ha]
            exact takeWhile_eq_self_of_dropWhile_nil _ _ (by rw [← hr]; exact hrnil)
          refine ⟨a ++ r.takeWhile isTerm, by rw [hseg]; exact List.mem_cons_self _ _, ?_⟩
          rw [htm, List.append_nil, haall]
          intro htrim
          have hsuffix : (c :: cs) <:+ t := by
            rw [← hdrop]
            exact List.dropWhile_suffix isTerm
          have hlast2 : t.getLast? = (c :: cs).getLast? :=
            getLast?_of_suffix (c :: cs) t hsuffix (by simp)
          obtain ⟨d, hd⟩ : ∃ d, (c :: cs).getLast? = some d := by
            cases hgl : (c :: cs).getLast? with
            | none => rw [List.getLast?_eq_getLast _ (by simp)] at hgl; simp at hgl
            | some d => exact ⟨d, rfl⟩
          have hdns : isJsSpace d = false := hlast
            d (by rw [hlast2]; exact hd)
          have hdmem : d ∈ c :: cs := getLast?_mem_of_eq _ _ hd
          have := (trim_eq_nil_iff (c :: cs)).mp htrim d hdmem
          rw [hdns] at this
          exact Bool.noConfusion this
        · -- the head segment contains a terminator, which is not whitespace
          refine ⟨a ++ r.takeWhile isTerm, by rw [hseg]; exact List.mem_cons_self _ _, ?_⟩
          intro htrim
          obtain ⟨x, hx⟩ : ∃ x, x ∈ r.takeWhile isTerm := by
            cases hc2 : r.takeWhile isTerm with
            | nil => exact absurd hc2 htm
            | cons x xs => exact ⟨x, by simp [hc2]⟩
          have hxterm : isTerm x = true := List.mem_takeWhile_imp hx
          have hxns : isJsSpace x = false := isTerm_not_space x hxterm
          have hxmem : x ∈ a ++ r.takeWhile isTerm := List.mem_append_right a hx
          have := (trim_eq_nil_iff _).mp htrim x hxmem
          rw [hxns] at this
          exact Bool.noConfusion this
      · -- recurse into the remaining segments
        have hrestne : rest ≠ [] := by
          intro hnil
          rw [hnil] at hrm
          exact hrm rfl
        have hrestsuf : rest <:+ t := by
          calc rest <:+ r := List.dropWhile_suffix isTerm
            _ <:+ (c :: cs) := List.dropWhile_suffix _
            _ <:+ t := by rw [← hdrop]; exact List.dropWhile_suffix isTerm
        have hrestlen : rest.length ≤ n := by
          have h1 : rest.length ≤ r.length := (List.dropWhile_suffix isTerm).length_le
          have h2 : r.length ≤ cs.length := by
            rw [hr]
            have hc : isTerm c = false := by
              have := List.head?_dropWhile_not isTerm t
              rw [hdrop] at this
              simpa using this
            rw [List.dropWhile_cons_of_pos (by simp [hc])]
            exact (List.dropWhile_suffix _).length_le
          have h3 : (c :: cs).length ≤ t.length :=
            (by rw [← hdrop]; exact List.dropWhile_suffix isTerm :
              (c :: cs) <:+ t).length_le
          simp only [List.length_cons] at h3
          omega
        have hrestlast : ∀ d, rest.getLast? = some d → isJsSpace d = false := by
          intro d hd
          have := getLast?_of_suffix rest t hrestsuf hrestne
          exact hlast d (by rw [this]; exact hd)
        obtain ⟨raw, hrawmem, hrawtrim⟩ := ih rest hrestlen hrestne hrestlast hrm
        exact ⟨raw, by rw [hseg]; exact List.mem_cons_of_mem _ hrawmem, hrawtrim⟩

theorem segmentOutput_props (out : List Char) :
    ∀ s ∈ segmentOutput out, s ≠ [] ∧ trim s = s ∧ noDotSpace s = true := by
  intro s hs
  unfold segmentOutput at hs
  simp only at hs
  by_cases ht : 0 < (trim out).length
  · rw [if_pos ht] at hs
    have htt : trim (trim out) = trim out := trim_idem out
    have htne : trim out ≠ [] := by
      intro hnil
      rw [hnil] at ht
      simp at ht
    have hsegs0 : ((if rawSegments (trim out) = [] then [trim out]
        else rawSegments (trim out)).map trim).filter (fun x => 0 < x.length) ≠ [] := by
      by_cases hm : rawSegments (trim out) = []
      · rw [if_pos hm]
        simp only [List.map_cons, List.map_nil, htt]
        simp [List.filter, ht]
      · rw [if_neg hm]
        obtain ⟨raw, hrawmem, hrawtrim⟩ := rawSegments_exists_keep
          (trim out).length (trim out) le_rfl htne
          (getLast_not_space_of_trim_eq (trim out) htt) hm
        have hmem : trim raw ∈ (rawSegments (trim out)).map trim :=
          List.mem_map_of_mem trim hrawmem
        have hkeep : trim raw ∈ ((rawSegments (trim out)).map trim).filter
            (fun x => 0 < x.length) := by
          rw [List.mem_filter]
          refine ⟨hmem, ?_⟩
          simp only [decide_eq_true_eq]
          cases hc : trim raw with
          | nil => exact absurd hc hrawtrim
          | cons d ds => simp
        exact List.ne_nil_of_mem hkeep
    rw [if_neg (by push_neg; intro hc; exact absurd hc hsegs0)] at hs
    obtain ⟨hmem, hlen⟩ := List.mem_filter.mp hs
    obtain ⟨raw, hrawmem, hraweq⟩ := List.mem_map.mp hmem
    have hlen2 : 0 < s.length := by simpa using hlen
    refine ⟨by intro hnil; rw [hnil] at hlen2; simp at hlen2, ?_, ?_⟩
    · rw [← hraweq, trim_idem]
    · have hnds : noDotSpace raw = true := by
        by_cases hm : rawSegments (trim out) = []
        · rw [if_pos hm] at hrawmem
          simp at hrawmem
          subst hrawmem
          refine noDotSpace_all_term (trim out) ?_
          intro c hc
          exact List.dropWhile_eq_nil_iff.mp ((rawSegments_eq_nil_iff _).mp hm) c hc
        · rw [if_neg hm] at hrawmem
          obtain ⟨A, T, hAT, hA, hT⟩ :=
            rawSegments_structure (trim out) raw hrawmem
          rw [hAT]
          exact noDotSpace_parts A T hA hT
      rw [← hraweq]
      exact noDotSpace_trim raw hnds
  · rw [if_neg ht] at hs
    rw [if_neg (by push_neg; intro _; omega)] at hs
    simp at hs

/-- C2: when segmenting the output yields fewer segments than there are
non-empty input lines, `processTranslationLineBreaks` logs one alignment
warning per unmatched non-empty input line, pushes a blank placeholder
(`''`) into the restored output for each of them, and takes no other
corrective action: the extra-segment loop does not run, and the restored
array is exactly the correlation of input lines with the available
segments (blank lines and exhausted lines mapped to `''`). -/
theorem C2_fewerSegmentsPlaceholders (st : ScriptState) (dom : DomState)
    (inHTML cur : List Char)
    (hin : dom.inputHTML = some inHTML) (hout : dom.outputText = some cur)
    (hguard : ¬(inHTML = st.lastProcessedInputHTML ∧
      cur = st.lastProcessedOutputText))
    (hfewer : (segmentOutput cur).length <
      nonBlankCount (inputLinesOf inHTML)) :
    (processTranslationLineBreaks st dom).mismatchWarnings =
      nonBlankCount (inputLinesOf inHTML) - (segmentOutput cur).length ∧
    (processTranslationLineBreaks st dom).extraWarnings = 0 ∧
    restoredArrayOf inHTML cur =
      (correlate (inputLinesOf inHTML) (segmentOutput cur)).1 ∧
    maskNonBlank (inputLinesOf inHTML) (restoredArrayOf inHTML cur) =
      segmentOutput cur ++ List.replicate
        (nonBlankCount (inputLinesOf inHTML) - (segmentOutput cur).length) [] ∧
    List.Forall₂ (fun l x => trim l = [] → x = []) (inputLinesOf inHTML)
      (restoredArrayOf inHTML cur) ∧
    (restoredArrayOf inHTML cur).length = (inputLinesOf inHTML).length := by
  obtain ⟨iH, oT⟩ := dom
  simp only at hin hout
  subst hin; subst hout
  have hblank : ¬((inputLinesOf inHTML).all (fun l => decide (trim l = [])) = true) := by
    intro hall
    have h2 : ∀ l ∈ inputLinesOf inHTML, trim l = [] := by
      intro l hl
      have := List.all_eq_true.mp hall l hl
      simpa using this
    have := (nonBlankCount_eq_zero _).mpr h2
    omega
  have hleft : (correlate (inputLinesOf inHTML) (segmentOutput cur)).2.1 = [] := by
    rw [correlate_leftover]
    exact List.drop_eq_nil_of_le (by omega)
  have hrest : restoredArrayOf inHTML cur =
      (correlate (inputLinesOf inHTML) (segmentOutput cur)).1 := by
    show appendExtras (correlate (inputLinesOf inHTML) (segmentOutput cur)).1
      (correlate (inputLinesOf inHTML) (segmentOutput cur)).2.1 =
      (correlate (inputLinesOf inHTML) (segmentOutput cur)).1
    rw [hleft, appendExtras]
  refine ⟨?_, ?_, hrest, ?_, ?_, ?_⟩
  · simp only [processTranslationLineBreaks, if_neg hguard]
    rw [if_neg (by simpa using hblank)]
    split
    · exact correlate_warnings _ _
    · exact correlate_warnings _ _
  · simp only [processTranslationLineBreaks, if_neg hguard]
    rw [if_neg (by simpa using hblank)]
    split
    · simp [hleft]
    · simp [hleft]
  · rw [hrest, correlate_mask]
    rw [List.take_of_length_le (by omega)]
  · rw [hrest]
    exact correlate_blank _ _
  · rw [hrest]
    exact correlate_length _ _

theorem carefulConcat_no_nl (a b : List Char) (ha : '\n' ∉ a) (hb : '\n' ∉ b) :
    '\n' ∉ carefulConcat a b := by
  unfold carefulConcat
  split
  · intro hmem
    rcases List.mem_append.mp hmem with h | h
    · exact ha h
    · rcases List.mem_cons.mp h with h | h
      · exact absurd h (by decide)
      · exact hb h
  · intro hmem
    rcases List.mem_append.mp hmem with h | h
    · exact ha h
    · exact hb h

theorem foldl_carefulConcat_no_nl (es : List (List Char)) (x : List Char)
    (hx : '\n' ∉ x) (hes : ∀ e ∈ es, '\n' ∉ e) :
    '\n' ∉ es.foldl carefulConcat x := by
  induction es generalizing x with
  | nil => exact hx
  | cons e et ih =>
    simp only [List.foldl_cons]
    exact ih (carefulConcat x e)
      (carefulConcat_no_nl x e hx (hes e (List.mem_cons_self e et)))
      (fun y hy => hes y (List.mem_cons_of_mem e hy))

theorem fixDotSpaceFuel_subset (n : Nat) :
    ∀ s, ∀ c ∈ fixDotSpaceFuel n s, c ∈ s := by
  induction n with
  | zero =>
    intro s x hx
    cases s with
    | nil => simp [fixDotSpaceFuel] at hx
    | cons c cs => exact hx
  | succ n ih =>
    intro s x hx
    cases s with
    | nil => simp [fixDotSpaceFuel] at hx
    | cons c cs =>
      by_cases hcond : c = '.' ∧ startsWithSpace cs = true
      · rw [show fixDotSpaceFuel (n + 1) (c :: cs) =
            '.' :: fixDotSpaceFuel n (cs.dropWhile isJsSpace) from by
          simp only [fixDotSpaceFuel, if_pos hcond]] at hx
        rcases List.mem_cons.mp hx with hx | hx
        · rw [hx, hcond.1]
          exact List.mem_cons_self _ _
        · exact List.mem_cons_of_mem c
            ((List.dropWhile_suffix isJsSpace).subset (ih _ x hx))
      · rw [show fixDotSpaceFuel (n + 1) (c :: cs) =
            c :: fixDotSpaceFuel n cs from by
          simp only [fixDotSpaceFuel, if_neg hcond]] at hx
        rcases List.mem_cons.mp hx with hx | hx
        · rw [hx]; exact List.mem_cons_self _ _
        · exact List.mem_cons_of_mem c (ih _ x hx)

theorem fixDotSpace_subset (s : List Char) :
    ∀ c ∈ fixDotSpace s, c ∈ s :=
  fixDotSpaceFuel_subset s.length s

theorem emailFixLine_no_nl (x : List Char) (h : '\n' ∉ x) :
    '\n' ∉ emailFixLine x := by
  unfold emailFixLine
  split
  · intro hmem
    exact h (fixDotSpace_subset x _ hmem)
  · exact h

theorem map_id_of_mem (l : List (List Char)) (f : List Char → List Char)
    (h : ∀ x ∈ l, f x = x) : l.map f = l := by
  rw [List.map_congr_left h]
  exact List.map_id l

theorem appendRev_length (seg : List Char) (l ys : List (List Char))
    (h : appendRev seg l = some ys) : ys.length = l.length := by
  induction l generalizing ys with
  | nil => simp [appendRev] at h
  | cons x xs ih =>
    simp only [appendRev] at h
    by_cases hx : x ≠ []
    · rw [if_pos hx] at h
      injection h with h
      rw [← h]
      simp
    · rw [if_neg hx] at h
      cases hrec : appendRev seg xs with
      | none => rw [hrec] at h; simp at h
      | some zs =>
        rw [hrec] at h
        have h2 : some (x :: zs) = some ys := h
        injection h2 with h2
        rw [← h2]
        simp [ih zs hrec]

theorem appendExtra_length (arr : List (List Char)) (seg : List Char) :
    arr.length ≤ (appendExtra arr seg).length := by
  unfold appendExtra
  cases hrev : appendRev seg arr.reverse with
  | none => simp
  | some revd =>
    have := appendRev_length seg arr.reverse revd hrev
    simp [this]

theorem appendExtras_length (arr : List (List Char)) (es : List (List Char)) :
    arr.length ≤ (appendExtras arr es).length := by
  induction es generalizing arr with
  | nil => exact Nat.le_refl _
  | cons e et ih =>
    simp only [appendExtras]
    calc arr.length ≤ (appendExtra arr e).length := appendExtra_length arr e
      _ ≤ (appendExtras (appendExtra arr e) et).length := ih (appendExtra arr e)

theorem restoredArrayOf_ne_nil (inHTML cur : List Char) :
    restoredArrayOf inHTML cur ≠ [] := by
  apply List.ne_nil_of_length_pos
  have h1 : (inputLinesOf inHTML).length ≤ (restoredArrayOf inHTML cur).length := by
    show (inputLinesOf inHTML).length ≤
      (appendExtras (correlate (inputLinesOf inHTML) (segmentOutput cur)).1
        (correlate (inputLinesOf inHTML) (segmentOutput cur)).2.1).length
    calc (inputLinesOf inHTML).length
        = (correlate (inputLinesOf inHTML) (segmentOutput cur)).1.length :=
          (correlate_length _ _).symm
      _ ≤ _ := appendExtras_length _ _
  have h2 : 0 < (inputLinesOf inHTML).length := by
    cases hl : inputLinesOf inHTML with
    | nil => exact absurd hl (splitNl_ne_nil _)
    | cons a t => simp
  omega

theorem processedOutputOf_eq (inHTML cur : List Char) :
    processedOutputOf inHTML cur =
      joinNl ((splitNl (joinNl (restoredArrayOf inHTML cur))).map emailFixLine) := rfl

theorem processed_split (inHTML cur : List Char)
    (hnn : ∀ x ∈ restoredArrayOf inHTML cur, '\n' ∉ x) :
    splitNl (processedOutputOf inHTML cur) =
      (restoredArrayOf inHTML cur).map emailFixLine := by
  rw [processedOutputOf_eq]
  rw [splitNl_joinNl _ (restoredArrayOf_ne_nil inHTML cur) hnn]
  rw [splitNl_joinNl]
  · intro hmap
    exact restoredArrayOf_ne_nil inHTML cur (List.map_eq_nil_iff.mp hmap)
  · intro x hx
    obtain ⟨y, hy, hyx⟩ := List.mem_map.mp hx
    rw [← hyx]
    exact emailFixLine_no_nl y (hnn y hy)

/-- C1: for an input that is not entirely blank, and provided no computed
output segment spans a newline, the text carried by the output node after
the call splits into exactly as many lines as the input HTML (split on
`<br>` tags and newlines): each blank input line maps to an empty output
line, the non-blank input lines receive the output segments in order
(with `''` for non-blank lines beyond the last segment), and when there
are more segments than non-blank lines the extra trailing segments are
appended (with the careful space join and the email fix) onto the last
segment-bearing line instead of adding lines. -/
theorem C1_lineStructure (st : ScriptState) (dom : DomState)
    (inHTML cur : List Char)
    (hin : dom.inputHTML = some inHTML) (hout : dom.outputText = some cur)
    (hguard : ¬(inHTML = st.lastProcessedInputHTML ∧
      cur = st.lastProcessedOutputText))
    (hnb : ¬((inputLinesOf inHTML).all (fun l => decide (trim l = [])) = true))
    (hnl : ∀ s ∈ segmentOutput cur, '\n' ∉ s) :
    nodeTextAfter (processTranslationLineBreaks st dom) cur =
      processedOutputOf inHTML cur ∧
    (splitNl (processedOutputOf inHTML cur)).length =
      (inputLinesOf inHTML).length ∧
    List.Forall₂ (fun l x => trim l = [] → x = []) (inputLinesOf inHTML)
      (splitNl (processedOutputOf inHTML cur)) ∧
    ((segmentOutput cur).length ≤ nonBlankCount (inputLinesOf inHTML) →
      maskNonBlank (inputLinesOf inHTML) (splitNl (processedOutputOf inHTML cur)) =
        segmentOutput cur ++ List.replicate
          (nonBlankCount (inputLinesOf inHTML) - (segmentOutput cur).length) []) ∧
    (∀ sLast2 rest2,
      nonBlankCount (inputLinesOf inHTML) < (segmentOutput cur).length →
      (segmentOutput cur).drop (nonBlankCount (inputLinesOf inHTML) - 1) =
        sLast2 :: rest2 →
      maskNonBlank (inputLinesOf inHTML) (splitNl (processedOutputOf inHTML cur)) =
        (segmentOutput cur).take (nonBlankCount (inputLinesOf inHTML) - 1) ++
          [emailFixLine (rest2.foldl carefulConcat sLast2)]) := by
  obtain ⟨iH, oT⟩ := dom
  simp only at hin hout
  subst hin; subst hout
  have hsegP := segmentOutput_props cur
  have hnode : nodeTextAfter
      (processTranslationLineBreaks st ⟨some inHTML, some cur⟩) cur =
      processedOutputOf inHTML cur := by
    simp only [processTranslationLineBreaks, if_neg hguard]
    rw [if_neg (by simpa using hnb)]
    split
    · rfl
    · rename_i hne
      have h2 : cur = processedOutputOf inHTML cur := not_not.mp (by simpa using hne)
      exact h2
  refine ⟨hnode, ?_⟩
  by_cases hcase : (segmentOutput cur).length ≤ nonBlankCount (inputLinesOf inHTML)
  · -- no extra segments: restored array is the correlation result
    have hleft : (correlate (inputLinesOf inHTML) (segmentOutput cur)).2.1 = [] := by
      rw [correlate_leftover]
      exact List.drop_eq_nil_of_le hcase
    have hrest : restoredArrayOf inHTML cur =
        (correlate (inputLinesOf inHTML) (segmentOutput cur)).1 := by
      show appendExtras (correlate (inputLinesOf inHTML) (segmentOutput cur)).1
        (correlate (inputLinesOf inHTML) (segmentOutput cur)).2.1 = _
      rw [hleft, appendExtras]
    have hnn : ∀ x ∈ restoredArrayOf inHTML cur, '\n' ∉ x := by
      rw [hrest]
      intro x hx
      rcases correlate_mem (inputLinesOf inHTML) (segmentOutput cur) x hx with h2 | h2
      · rw [h2]; simp
      · exact hnl x h2
    have hsplit := processed_split inHTML cur hnn
    rw [hrest] at hsplit
    refine ⟨?_, ?_, ?_, ?_⟩
    · rw [hsplit]
      simp [correlate_length]
    · rw [hsplit]
      exact forall₂_map_blank _ _ _ emailFixLine_nil (correlate_blank _ _)
    · intro _
      rw [hsplit, maskNonBlank_map, correlate_mask, List.map_append,
        List.map_replicate]
      rw [map_id_of_mem _ _ (fun x hx =>
        emailFixLine_id x (hsegP x (List.take_subset _ _ hx)).2.2)]
      rw [List.take_of_length_le hcase]
      rfl
    · intro sLast2 rest2 hlt _
      omega
  · -- extra segments: they fold onto the last segment-bearing entry
    have hlt : nonBlankCount (inputLinesOf inHTML) < (segmentOutput cur).length := by
      omega
    have hnbc1 : 1 ≤ nonBlankCount (inputLinesOf inHTML) := by
      by_contra h0
      have hz : nonBlankCount (inputLinesOf inHTML) = 0 := by omega
      have hallb := (nonBlankCount_eq_zero _).mp hz
      apply hnb
      simp only [List.all_eq_true]
      intro l hl
      simpa using hallb l hl
    obtain ⟨ls1, lk, ls2, r1, sLast, r2, hls, hlk, hls2, hdrop, hcorr, hlen1,
      hlen2, hall, hmaskr1, hfa, hnbc1s⟩ :=
      correlate_split (inputLinesOf inHTML) (segmentOutput cur) hnbc1 (by omega)
    have hleft := correlate_leftover (inputLinesOf inHTML) (segmentOutput cur)
    have hsLast_mem : sLast ∈ segmentOutput cur := by
      refine List.mem_of_mem_drop (n := nonBlankCount (inputLinesOf inHTML) - 1) ?_
      rw [hdrop]
      exact List.mem_cons_self _ _
    have hsLast_nnil : sLast ≠ [] := (hsegP sLast hsLast_mem).1
    have hrest : restoredArrayOf inHTML cur =
        r1 ++ (((segmentOutput cur).drop (nonBlankCount (inputLinesOf inHTML))).foldl
          carefulConcat sLast) :: r2 := by
      show appendExtras (correlate (inputLinesOf inHTML) (segmentOutput cur)).1
        (correlate (inputLinesOf inHTML) (segmentOutput cur)).2.1 = _
      rw [hcorr, hleft]
      exact appendExtras_spec r1 sLast r2 _ hsLast_nnil hall
    have hr1mem : ∀ x ∈ r1, x = [] ∨ x ∈ segmentOutput cur := by
      intro x hx
      refine correlate_mem (inputLinesOf inHTML) (segmentOutput cur) x ?_
      rw [hcorr]
      exact List.mem_append_left _ hx
    have hnn : ∀ x ∈ restoredArrayOf inHTML cur, '\n' ∉ x := by
      rw [hrest]
      intro x hx
      rcases List.mem_append.mp hx with hx | hx
      · rcases hr1mem x hx with h2 | h2
        · rw [h2]; simp
        · exact hnl x h2
      · rcases List.mem_cons.mp hx with hx | hx
        · rw [hx]
          exact foldl_carefulConcat_no_nl _ _ (hnl sLast hsLast_mem)
            (fun e he => hnl e (List.mem_of_mem_drop he))
        · rw [hall x hx]
          simp
    have hsplit := processed_split inHTML cur hnn
    rw [hrest] at hsplit
    have hfmap : ((r1 ++ (((segmentOutput cur).drop
        (nonBlankCount (inputLinesOf inHTML))).foldl carefulConcat sLast) :: r2).map
          emailFixLine) =
        r1.map emailFixLine ++ (emailFixLine (((segmentOutput cur).drop
          (nonBlankCount (inputLinesOf inHTML))).foldl carefulConcat sLast)) ::
          r2.map emailFixLine := by
      simp
    rw [hfmap] at hsplit
    refine ⟨?_, ?_, ?_, ?_⟩
    · rw [hsplit, hls]
      simp only [List.length_append, List.length_cons, List.length_map]
      omega
    · rw [hsplit, hls]
      refine List.rel_append (forall₂_map_blank ls1 r1 emailFixLine emailFixLine_nil hfa)
        (List.Forall₂.cons (fun hb => absurd hb hlk) ?_)
      refine forall₂_blank_of_all_nil ls2 (r2.map emailFixLine) (by simp [hlen2]) ?_
      intro y hy
      obtain ⟨z, hz, hzy⟩ := List.mem_map.mp hy
      rw [← hzy, hall z hz]
      rfl
    · intro hle
      omega
    · intro sLast2 rest2 _ hdrop2
      rw [hdrop] at hdrop2
      injection hdrop2 with he1 he2
      subst he1
      subst he2
      rw [hsplit]
      nth_rewrite 1 [hls]
      rw [maskNonBlank_append ls1 (lk :: ls2) (r1.map emailFixLine)
        ((emailFixLine (((segmentOutput cur).drop
          (nonBlankCount (inputLinesOf inHTML))).foldl carefulConcat sLast)) ::
          r2.map emailFixLine) (by simp [hlen1])]
      simp only [maskNonBlank, if_neg hlk]
      rw [maskNonBlank_all_blank ls2 _ hls2, maskNonBlank_map, hmaskr1]
      rw [map_id_of_mem _ _ (fun x hx =>
        emailFixLine_id x (hsegP x (List.take_subset _ _ hx)).2.2)]
  /- end of the two cases -/

/-- The whole email post-processing step (lines 254-260) as a string
transformation: split on newlines, apply `emailFixLine` to each line,
join back. -/
def emailFixText (s : List Char) : List Char :=
  joinNl ((splitNl s).map emailFixLine)

/-- The text left in the output node by the non-guard path of
`processTranslationLineBreaks` as a function of the two region contents:
the all-blank branch yields the empty string, the main branch yields the
resegmentation result. -/
def textTransform (inputHTML outputText : List Char) : List Char :=
  if (inputLinesOf inputHTML).all (fun l => trim l = []) then []
  else processedOutputOf inputHTML outputText

/-- A string assembled from (glue, piece) items followed by a final glue:
`glueCat [(g1,p1),...,(gk,pk)] e = g1 ++ p1 ++ ... ++ gk ++ pk ++ e`. -/
def glueCat : List (List Char × List Char) → List Char → List Char
  | [], e => e
  | (g, p) :: rest, e => g ++ p ++ glueCat rest e

/-- Whether a piece ends with a sentence terminator. -/
def endsTerm (p : List Char) : Bool :=
  match p.getLast? with
  | some c => isTerm c
  | none => false

/-- Every piece except possibly the last ends with a terminator. -/
def InnerT : List (List Char) → Prop
  | [] => True
  | [_] => True
  | p :: q :: rest => endsTerm p = true ∧ InnerT (q :: rest)

theorem glueCat_append (i1 i2 : List (List Char × List Char)) (e : List Char) :
    glueCat (i1 ++ i2) e = glueCat i1 [] ++ glueCat i2 e := by
  induction i1 with
  | nil => simp [glueCat]
  | cons it rest ih =>
    obtain ⟨g, p⟩ := it
    simp only [List.cons_append, glueCat, List.append_assoc, List.append_eq]
    rw [ih]

theorem glueCat_extend_end (items : List (List Char × List Char)) (e z : List Char) :
    glueCat items e ++ z = glueCat items (e ++ z) := by
  induction items with
  | nil => simp [glueCat]
  | cons it rest ih =>
    obtain ⟨g, p⟩ := it
    simp only [glueCat, List.append_assoc, ih]

theorem glueCat_prepend (z g p : List Char) (rest : List (List Char × List Char))
    (e : List Char) :
    z ++ glueCat ((g, p) :: rest) e = glueCat ((z ++ g, p) :: rest) e := by
  simp [glueCat]

theorem takeWhile_append_all (P : Char → Bool) (u v : List Char)
    (hu : ∀ c ∈ u, P c = true) :
    (u ++ v).takeWhile P = u ++ v.takeWhile P := by
  induction u with
  | nil => simp
  | cons c cs ih =>
    simp only [List.cons_append, List.takeWhile_cons_of_pos
      (hu c (List.mem_cons_self c cs))]
    rw [ih (fun x hx => hu x (List.mem_cons_of_mem c hx))]

theorem dropWhile_append_all (P : Char → Bool) (u v : List Char)
    (hu : ∀ c ∈ u, P c = true) :
    (u ++ v).dropWhile P = v.dropWhile P := by
  induction u with
  | nil => simp
  | cons c cs ih =>
    simp only [List.cons_append, List.dropWhile_cons_of_pos
      (hu c (List.mem_cons_self c cs))]
    exact ih (fun x hx => hu x (List.mem_cons_of_mem c hx))

theorem takeWhile_append_stop (P : Char → Bool) (u v : List Char)
    (hu : ∀ c ∈ u, P c = true) (hv : ∀ c, v.head? = some c → P c = false) :
    (u ++ v).takeWhile P = u := by
  rw [takeWhile_append_all P u v hu]
  cases v with
  | nil => simp
  | cons c cs =>
    rw [List.takeWhile_cons_of_neg]
    · simp
    · simp [hv c rfl]

theorem dropWhile_append_stop (P : Char → Bool) (u v : List Char)
    (hu : ∀ c ∈ u, P c = true) (hv : ∀ c, v.head? = some c → P c = false) :
    (u ++ v).dropWhile P = v := by
  rw [dropWhile_append_all P u v hu]
  cases v with
  | nil => simp
  | cons c cs =>
    rw [List.dropWhile_cons_of_neg]
    simp [hv c rfl]

theorem trim_inv_head (p : List Char) (hp : trim p = p) (c : Char)
    (hc : p.head? = some c) : isJsSpace c = false := by
  have h1 : trimLeft p = p := trimLeft_eq_self_of_trim_eq p hp
  cases p with
  | nil => simp at hc
  | cons d ds =>
    simp only [List.head?] at hc
    injection hc with hc
    subst hc
    by_cases hw : isJsSpace d
    · rw [show trimLeft (d :: ds) = trimLeft ds from by
        simp [trimLeft, List.dropWhile_cons, hw]] at h1
      have := (List.dropWhile_suffix isJsSpace (l := ds)).length_le
      rw [show ds.dropWhile isJsSpace = trimLeft ds from rfl, h1] at this
      simp at this
    · simpa using hw

theorem trim_ws_append (g p : List Char) (hg : ∀ c ∈ g, isJsSpace c = true)
    (hp : trim p = p) : trim (g ++ p) = p := by
  unfold trim
  have h1 : trimLeft (g ++ p) = trimLeft p := by
    unfold trimLeft
    exact dropWhile_append_all isJsSpace g p hg
  rw [h1, trimLeft_eq_self_of_trim_eq p hp]
  exact trimRight_eq_self_of_trim_eq p hp

theorem trimRight_append_ws (x e : List Char) (he : ∀ c ∈ e, isJsSpace c = true)
    (hx : ∀ c, x.getLast? = some c → isJsSpace c = false) :
    trimRight (x ++ e) = x := by
  unfold trimRight
  rw [List.reverse_append]
  rw [dropWhile_append_all isJsSpace e.reverse x.reverse
    (fun c hc => he c (List.mem_reverse.mp hc))]
  cases hxr : x.reverse with
  | nil =>
    have : x = [] := by
      have := congrArg List.reverse hxr
      simpa using this
    simp [this]
  | cons c cs =>
    rw [List.dropWhile_cons_of_neg]
    · rw [← hxr]
      simp
    · have : x.getLast? = some c := by
        rw [← List.head?_reverse, hxr]
        rfl
      simp [hx c this]

theorem fixDotSpaceFuel_nil (m : Nat) : fixDotSpaceFuel m [] = [] := by
  cases m <;> rfl

theorem fixDotSpaceFuel_agnostic (n : Nat) :
    ∀ (m : Nat) (s : List Char), s.length ≤ n → s.length ≤ m →
      fixDotSpaceFuel n s = fixDotSpaceFuel m s := by
  induction n with
  | zero =>
    intro m s hn _
    have hs : s = [] := by
      cases s with
      | nil => rfl
      | cons c cs => simp at hn
    rw [hs, fixDotSpaceFuel_nil, fixDotSpaceFuel_nil]
  | succ n ih =>
    intro m s hn hm
    cases s with
    | nil => rw [fixDotSpaceFuel_nil, fixDotSpaceFuel_nil]
    | cons c cs =>
      obtain ⟨m2, hm2⟩ : ∃ m2, m = m2 + 1 := by
        cases m with
        | zero => simp at hm
        | succ k => exact ⟨k, rfl⟩
      subst hm2
      simp only [fixDotSpaceFuel]
      simp only [List.length_cons] at hn hm
      by_cases hcond : c = '.' ∧ startsWithSpace cs = true
      · rw [if_pos hcond, if_pos hcond]
        congr 1
        have : (cs.dropWhile isJsSpace).length ≤ cs.length :=
          (List.dropWhile_suffix _).length_le
        exact ih m2 _ (by omega) (by omega)
      · rw [if_neg hcond, if_neg hcond]
        congr 1
        exact ih m2 cs (by omega) (by omega)

theorem fixDotSpace_cons_pos (c : Char) (cs : List Char)
    (h : c = '.' ∧ startsWithSpace cs = true) :
    fixDotSpace (c :: cs) = '.' :: fixDotSpace (cs.dropWhile isJsSpace) := by
  show fixDotSpaceFuel (c :: cs).length (c :: cs) = _
  simp only [List.length_cons, fixDotSpaceFuel, if_pos h]
  congr 1
  have : (cs.dropWhile isJsSpace).length ≤ cs.length :=
    (List.dropWhile_suffix _).length_le
  exact fixDotSpaceFuel_agnostic cs.length _ _ this le_rfl

theorem fixDotSpace_cons_neg (c : Char) (cs : List Char)
    (h : ¬(c = '.' ∧ startsWithSpace cs = true)) :
    fixDotSpace (c :: cs) = c :: fixDotSpace cs := by
  show fixDotSpaceFuel (c :: cs).length (c :: cs) = _
  simp only [List.length_cons, fixDotSpaceFuel, if_neg h]
  rfl

theorem fixDotSpace_append_nodot (u v : List Char) (hu : '.' ∉ u) :
    fixDotSpace (u ++ v) = u ++ fixDotSpace v := by
  induction u with
  | nil => simp
  | cons c cs ih =>
    have hc : ¬(c = '.' ∧ startsWithSpace (cs ++ v) = true) := by
      rintro ⟨hc, _⟩
      exact hu (hc ▸ List.mem_cons_self c cs)
    rw [List.cons_append, fixDotSpace_cons_neg c (cs ++ v) hc]
    rw [ih (fun hm => hu (List.mem_cons_of_mem c hm))]
    rfl

theorem fixDotSpace_nodot_id (s : List Char) (hs : '.' ∉ s) :
    fixDotSpace s = s := by
  have := fixDotSpace_append_nodot s [] hs
  simpa [show fixDotSpace ([] : List Char) = [] from rfl] using this

theorem trim_subset (s : List Char) : ∀ c ∈ trim s, c ∈ s := by
  intro c hc
  have h1 : c ∈ trimLeft s := by
    have h2 := trimRight_prefix (trimLeft s)
    exact h2.subset hc
  exact (List.dropWhile_suffix isJsSpace).subset h1

theorem trimRight_eq_self_of_last (Y : List Char)
    (h : ∀ c, Y.getLast? = some c → isJsSpace c = false) : trimRight Y = Y := by
  unfold trimRight
  cases hr : Y.reverse with
  | nil =>
    rw [List.dropWhile_nil]
    rw [← hr, List.reverse_reverse]
  | cons c cs =>
    rw [List.dropWhile_cons_of_neg]
    · rw [← hr, List.reverse_reverse]
    · have hc : Y.getLast? = some c := by
        rw [← List.head?_reverse, hr]
        rfl
      simp [h c hc]

theorem trimLeft_append_term (A T : List Char)
    (hT : ∀ c, T.head? = some c → isTerm c = true) :
    trimLeft (A ++ T) = trimLeft A ++ T := by
  unfold trimLeft
  induction A with
  | nil =>
    simp only [List.nil_append]
    cases T with
    | nil => simp
    | cons t ts =>
      rw [List.dropWhile_cons_of_neg]
      · simp
      · have := hT t rfl
        simp [isTerm_not_space t this]
  | cons a A2 ih =>
    by_cases ha : isJsSpace a
    · simp only [List.cons_append,
        List.dropWhile_cons_of_pos (by simpa using ha)]
      rw [ih]
    · simp only [List.cons_append,
        List.dropWhile_cons_of_neg (by simpa using ha)]

theorem trim_AT (A T : List Char)
    (hA : ∀ c ∈ A, isTerm c = false) (hT : ∀ c ∈ T, isTerm c = true) :
    ∃ A2, trim (A ++ T) = A2 ++ T ∧ (∀ c ∈ A2, isTerm c = false) := by
  cases hTc : T with
  | nil =>
    refine ⟨trim A, by simp, ?_⟩
    intro c hc
    exact hA c (trim_subset A c hc)
  | cons t ts =>
    refine ⟨trimLeft A, ?_, ?_⟩
    · unfold trim
      rw [show trimLeft (A ++ t :: ts) = trimLeft A ++ t :: ts from
        trimLeft_append_term A (t :: ts)
          (fun c hc => by
            simp only [List.head?] at hc
            injection hc with hc
            exact hc ▸ hT t (hTc ▸ List.mem_cons_self t ts))]
      apply trimRight_eq_self_of_last
      intro c hc
      have hlast : (trimLeft A ++ t :: ts).getLast? = (t :: ts).getLast? := by
        rw [List.getLast?_append]
        rw [List.getLast?_eq_getLast (t :: ts) (by simp)]
        rfl
      rw [hlast] at hc
      have hmem : c ∈ t :: ts := getLast?_mem_of_eq _ _ hc
      exact isTerm_not_space c (hT c (hTc ▸ hmem))
    · intro c hc
      exact hA c ((List.dropWhile_suffix isJsSpace).subset hc)

theorem segmentFilter_ne_nil (out : List Char) (ht : 0 < (trim out).length) :
    ((if rawSegments (trim out) = [] then [trim out]
      else rawSegments (trim out)).map trim).filter (fun x => 0 < x.length) ≠ [] := by
  have htt : trim (trim out) = trim out := trim_idem out
  have htne : trim out ≠ [] := by
    intro hnil
    rw [hnil] at ht
    simp at ht
  by_cases hm : rawSegments (trim out) = []
  · rw [if_pos hm]
    simp only [List.map_cons, List.map_nil, htt]
    simp [List.filter, ht]
  · rw [if_neg hm]
    obtain ⟨raw, hrawmem, hrawtrim⟩ := rawSegments_exists_keep
      (trim out).length (trim out) le_rfl htne
      (getLast_not_space_of_trim_eq (trim out) htt) hm
    have hmem : trim raw ∈ (rawSegments (trim out)).map trim :=
      List.mem_map_of_mem trim hrawmem
    have hkeep : trim raw ∈ ((rawSegments (trim out)).map trim).filter
        (fun x => 0 < x.length) := by
      rw [List.mem_filter]
      refine ⟨hmem, ?_⟩
      simp only [decide_eq_true_eq]
      cases hc : trim raw with
      | nil => exact absurd hc hrawtrim
      | cons d ds => simp
    exact List.ne_nil_of_mem hkeep

theorem segmentOutput_split (out : List Char) :
    ∀ s ∈ segmentOutput out, ∃ A T, s = A ++ T ∧
      (∀ c ∈ A, isTerm c = false) ∧ (∀ c ∈ T, isTerm c = true) := by
  intro s hs
  unfold segmentOutput at hs
  simp only at hs
  by_cases ht : 0 < (trim out).length
  · rw [if_pos ht] at hs
    have htt : trim (trim out) = trim out := trim_idem out
    rw [if_neg (by
      push_neg
      intro hc
      exact absurd hc (segmentFilter_ne_nil out ht))] at hs
    obtain ⟨hmem, _⟩ := List.mem_filter.mp hs
    obtain ⟨raw, hrawmem, hraweq⟩ := List.mem_map.mp hmem
    by_cases hm : rawSegments (trim out) = []
    · rw [if_pos hm] at hrawmem
      simp only [List.mem_cons, List.not_mem_nil, or_false] at hrawmem
      subst hrawmem
      refine ⟨[], trim out, by rw [← hraweq, htt]; simp, by simp, ?_⟩
      intro c hc
      exact List.dropWhile_eq_nil_iff.mp ((rawSegments_eq_nil_iff _).mp hm) c hc
    · rw [if_neg hm] at hrawmem
      obtain ⟨A, T, hAT, hA, hT⟩ := rawSegments_structure (trim out) raw hrawmem
      obtain ⟨A2, hA2, hA2p⟩ := trim_AT A T hA hT
      exact ⟨A2, T, by rw [← hraweq, hAT, hA2], hA2p, hT⟩
  · rw [if_neg ht] at hs
    rw [if_neg (by push_neg; intro _; omega)] at hs
    simp at hs

theorem InnerT_cons (p : List Char) (X : List (List Char))
    (h1 : X ≠ [] → endsTerm p = true) (h2 : InnerT X) : InnerT (p :: X) := by
  cases X with
  | nil => trivial
  | cons q rest => exact ⟨h1 (by simp), h2⟩

theorem InnerT_tail (p : List Char) (X : List (List Char))
    (h : InnerT (p :: X)) : InnerT X := by
  cases X with
  | nil => trivial
  | cons q rest => exact h.2

theorem InnerT_head (p : List Char) (X : List (List Char))
    (h : InnerT (p :: X)) (hne : X ≠ []) : endsTerm p = true := by
  cases X with
  | nil => exact absurd rfl hne
  | cons q rest => exact h.1

theorem InnerT_rawSegmentsFuel (n : Nat) :
    ∀ s, InnerT (rawSegmentsFuel n s) := by
  induction n with
  | zero => intro s; trivial
  | succ n ih =>
    intro s
    cases hdrop : s.dropWhile isTerm with
    | nil => rw [rawSegmentsFuel_succ_nil n s hdrop]; trivial
    | cons c cs =>
      rw [rawSegmentsFuel_succ_cons n s c cs hdrop]
      refine InnerT_cons _ _ ?_ (ih _)
      intro hne
      set r := (c :: cs).dropWhile (fun x => !isTerm x) with hr
      have hrest : r.dropWhile isTerm ≠ [] := by
        intro hnil
        rw [hnil, rawSegmentsFuel_nil] at hne
        exact hne rfl
      have hrne : r ≠ [] := by
        intro hnil
        rw [hnil] at hrest
        simp at hrest
      obtain ⟨x, xs, hx⟩ : ∃ x xs, r = x :: xs := by
        cases hrc : r with
        | nil => exact absurd hrc hrne
        | cons x xs => exact ⟨x, xs, rfl⟩
      have hxt : isTerm x = true := by
        have := List.head?_dropWhile_not (fun x => !isTerm x) (c :: cs)
        rw [← hr, hx] at this
        simpa using this
      have htm : r.takeWhile isTerm = x :: xs.takeWhile isTerm := by
        rw [hx, List.takeWhile_cons_of_pos hxt]
      unfold endsTerm
      rw [List.getLast?_append, htm]
      have hlast : (x :: xs.takeWhile isTerm).getLast? =
          some ((x :: xs.takeWhile isTerm).getLast (by simp)) :=
        List.getLast?_eq_getLast _ (by simp)
      rw [hlast]
      simp only [Option.or_some]
      have hmem : (x :: xs.takeWhile isTerm).getLast (by simp) ∈
          x :: xs.takeWhile isTerm := List.getLast_mem _
      rcases List.mem_cons.mp hmem with hm | hm
      · rw [hm, hxt]
      · exact List.mem_takeWhile_imp hm

theorem endsTerm_trim (p : List Char) (h : endsTerm p = true) :
    endsTerm (trim p) = true := by
  unfold endsTerm at h ⊢
  cases hgl : p.getLast? with
  | none => rw [hgl] at h; simp at h
  | some c =>
    rw [hgl] at h
    have hcns : isJsSpace c = false := isTerm_not_space c h
    have hpne : p ≠ [] := by
      intro hnil
      rw [hnil] at hgl
      simp at hgl
    have htlne : trimLeft p ≠ [] := by
      intro hnil
      have hall : ∀ d ∈ p, isJsSpace d := by
        intro d hd
        have h5 : p.takeWhile isJsSpace ++ p.dropWhile isJsSpace = p :=
          List.takeWhile_append_dropWhile isJsSpace p
        rw [← h5] at hd
        rcases List.mem_append.mp hd with hd | hd
        · exact List.mem_takeWhile_imp hd
        · rw [show p.dropWhile isJsSpace = trimLeft p from rfl, hnil] at hd
          simp at hd
      have := hall c (getLast?_mem_of_eq p c hgl)
      rw [hcns] at this
      exact Bool.noConfusion this
    have hgl2 : (trimLeft p).getLast? = some c := by
      rw [← getLast?_of_suffix (trimLeft p) p (List.dropWhile_suffix _) htlne]
      exact hgl
    have htr : trimRight (trimLeft p) = trimLeft p := by
      apply trimRight_eq_self_of_last
      intro d hd
      rw [hgl2] at hd
      injection hd with hd
      rw [← hd]
      exact hcns
    have htp : trim p = trimLeft p := htr
    rw [htp, hgl2]
    exact h

theorem InnerT_map (f : List Char → List Char) (ps : List (List Char))
    (hf : ∀ p ∈ ps, endsTerm p = true → endsTerm (f p) = true)
    (h : InnerT ps) : InnerT (ps.map f) := by
  induction ps with
  | nil => trivial
  | cons p t ih =>
    simp only [List.map_cons]
    refine InnerT_cons _ _ ?_ ?_
    · intro hne
      have htne : t ≠ [] := by
        intro hnil
        rw [hnil] at hne
        simp at hne
      exact hf p (List.mem_cons_self p t)
        (InnerT_head p t h htne)
    · exact ih (fun q hq hqe => hf q (List.mem_cons_of_mem p hq) hqe)
        (InnerT_tail p t h)

theorem InnerT_filter (pred : List Char → Bool) (ps : List (List Char))
    (h : InnerT ps) : InnerT (ps.filter pred) := by
  induction ps with
  | nil => trivial
  | cons p t ih =>
    by_cases hp : pred p
    · rw [List.filter_cons_of_pos hp]
      refine InnerT_cons _ _ ?_ (ih (InnerT_tail p t h))
      intro hne
      have htne : t ≠ [] := by
        intro hnil
        rw [hnil] at hne
        simp [List.filter] at hne
      exact InnerT_head p t h htne
    · rw [List.filter_cons_of_neg (by simpa using hp)]
      exact ih (InnerT_tail p t h)

theorem InnerT_segmentOutput (out : List Char) :
    InnerT (segmentOutput out) := by
  unfold segmentOutput
  simp only
  by_cases ht : 0 < (trim out).length
  · rw [if_pos ht]
    rw [if_neg (by
      push_neg
      intro hc
      exact absurd hc (segmentFilter_ne_nil out ht))]
    by_cases hm : rawSegments (trim out) = []
    · rw [if_pos hm]
      refine InnerT_filter _ _ ?_
      refine InnerT_map trim _ (fun p _ => endsTerm_trim p) ?_
      trivial
    · rw [if_neg hm]
      refine InnerT_filter _ _ ?_
      refine InnerT_map trim _ (fun p _ => endsTerm_trim p) ?_
      exact InnerT_rawSegmentsFuel (trim out).length (trim out)
  · rw [if_neg ht]
    rw [if_neg (by push_neg; intro _; omega)]
    trivial

/-- A string assembled from the given pieces in order, consecutive pieces
separated by an all-whitespace glue. -/
def wsSpaced : List Char → List (List Char) → List Char → Prop
  | a, [], y => y = a
  | a, x :: xs, y =>
    ∃ g y2, (∀ c ∈ g, isJsSpace c = true) ∧ wsSpaced x xs y2 ∧ y = a ++ g ++ y2

theorem wsSpaced_head_ext (w a : List Char) (as : List (List Char))
    (y : List Char) (h : wsSpaced a as y) : wsSpaced (w ++ a) as (w ++ y) := by
  cases as with
  | nil =>
    have h2 : y = a := h
    show w ++ y = w ++ a
    rw [h2]
  | cons x xs =>
    obtain ⟨g, y2, hg, hw2, hy⟩ := h
    exact ⟨g, y2, hg, hw2, by rw [hy]; simp⟩

theorem wsSpaced_spaces (as : List (List Char)) :
    ∀ a : List Char,
      wsSpaced a as (a ++ (as.map (fun x => ' ' :: x)).flatten) := by
  induction as with
  | nil =>
    intro a
    show a ++ ([] : List (List Char)).flatten = a
    simp
  | cons x t ih =>
    intro a
    refine ⟨[' '], x ++ (t.map (fun x => ' ' :: x)).flatten, ?_, ih x, ?_⟩
    · intro c hc
      simp at hc
      subst hc
      decide
    · simp

theorem wsSpaced_ne_nil (a : List Char) (as : List (List Char)) (y : List Char)
    (h : wsSpaced a as y) (ha : a ≠ []) : y ≠ [] := by
  cases as with
  | nil =>
    have h2 : y = a := h
    rw [h2]
    exact ha
  | cons x xs =>
    obtain ⟨g, y2, _, _, hy⟩ := h
    rw [hy]
    cases a with
    | nil => exact absurd rfl ha
    | cons c cs => simp

theorem wsSpaced_head (a : List Char) (as : List (List Char)) (y : List Char)
    (h : wsSpaced a as y) (ha : a ≠ []) : y.head? = a.head? := by
  cases as with
  | nil =>
    have h2 : y = a := h
    rw [h2]
  | cons x xs =>
    obtain ⟨g, y2, _, _, hy⟩ := h
    cases a with
    | nil => exact absurd rfl ha
    | cons c cs =>
      rw [hy]
      simp

theorem wsSpaced_getLast (as : List (List Char)) :
    ∀ (a y : List Char), wsSpaced a as y → (∀ p ∈ a :: as, p ≠ []) →
      ∃ q, q ∈ a :: as ∧ y.getLast? = q.getLast? := by
  induction as with
  | nil =>
    intro a y h _
    have h2 : y = a := h
    exact ⟨a, List.mem_cons_self a [], by rw [h2]⟩
  | cons x xs ih =>
    intro a y h hne
    obtain ⟨g, y2, hg, hw, hy⟩ := h
    obtain ⟨q, hq, hql⟩ := ih x y2 hw
      (fun p hp => hne p (List.mem_cons_of_mem a hp))
    refine ⟨q, List.mem_cons_of_mem a hq, ?_⟩
    have hy2 : y2 ≠ [] :=
      wsSpaced_ne_nil x xs y2 hw (hne x (List.mem_cons_of_mem a (List.mem_cons_self x xs)))
    rw [hy]
    rw [getLast?_of_suffix y2 (a ++ g ++ y2) ⟨a ++ g, by simp⟩ hy2]
    exact hql

theorem wsSpaced_concat (as : List (List Char)) :
    ∀ (a b : List Char) (bs : List (List Char)) (y z g : List Char),
      wsSpaced a as y → wsSpaced b bs z → (∀ c ∈ g, isJsSpace c = true) →
      wsSpaced a (as ++ b :: bs) (y ++ g ++ z) := by
  induction as with
  | nil =>
    intro a b bs y z g hy hz hg
    have h2 : y = a := hy
    subst h2
    exact ⟨g, z, hg, hz, rfl⟩
  | cons x xs ih =>
    intro a b bs y z g hy hz hg
    obtain ⟨g1, y2, hg1, hw, hyy⟩ := hy
    refine ⟨g1, y2 ++ g ++ z, hg1, ih x b bs y2 z g hw hz hg, ?_⟩
    rw [hyy]
    simp

theorem wsSpaced_graft (mid : List (List Char)) :
    ∀ (a u v : List Char) (rest : List (List Char)) (L R : List Char),
      wsSpaced a (mid ++ [u]) L → wsSpaced v rest R →
      wsSpaced a (mid ++ (u ++ '\n' :: v) :: rest) (L ++ '\n' :: R) := by
  induction mid with
  | nil =>
    intro a u v rest L R hL hR
    obtain ⟨g, y2, hg, hu, hLeq⟩ := hL
    have hu2 : y2 = u := hu
    refine ⟨g, u ++ '\n' :: R, hg, ?_, ?_⟩
    · have := wsSpaced_head_ext (u ++ ['\n']) v rest R hR
      simpa using this
    · rw [hLeq, hu2]
      simp
  | cons m ms ih =>
    intro a u v rest L R hL hR
    obtain ⟨g, L2, hg, hL2, hLeq⟩ := hL
    refine ⟨g, L2 ++ '\n' :: R, hg, ih m u v rest L2 R hL2 hR, ?_⟩
    rw [hLeq]
    simp

theorem splitNl_append_gen (Y : List Char) :
    ∀ X : List Char, splitNl (X ++ '\n' :: Y) = splitNl X ++ splitNl Y := by
  intro X
  induction X with
  | nil => simp [splitNl]
  | cons c cs ih =>
    by_cases hc : c = '\n'
    · subst hc
      show splitNl ('\n' :: (cs ++ '\n' :: Y)) = _
      rw [show splitNl ('\n' :: (cs ++ '\n' :: Y)) = [] :: splitNl (cs ++ '\n' :: Y)
        from by simp [splitNl]]
      rw [ih]
      rw [show splitNl ('\n' :: cs) = [] :: splitNl cs from by simp [splitNl]]
      rfl
    · cases hs : splitNl cs with
      | nil => exact absurd hs (splitNl_ne_nil cs)
      | cons l ls =>
        have h1 : splitNl ((c :: cs) ++ '\n' :: Y) =
            match splitNl (cs ++ '\n' :: Y) with
            | [] => [[c]]
            | l :: ls => (c :: l) :: ls := by
          simp only [List.cons_append, splitNl, if_neg hc, List.append_eq]
        rw [h1, ih, hs]
        have h2 : splitNl (c :: cs) = (c :: l) :: ls := by
          simp only [splitNl, if_neg hc, hs]
        rw [h2]
        rfl

theorem joinNl_append (l2 : List (List Char)) (h2 : l2 ≠ []) :
    ∀ l1 : List (List Char), l1 ≠ [] →
      joinNl (l1 ++ l2) = joinNl l1 ++ '\n' :: joinNl l2 := by
  intro l1
  induction l1 with
  | nil => intro h1; exact absurd rfl h1
  | cons x t ih =>
    intro _
    cases t with
    | nil =>
      cases l2 with
      | nil => exact absurd rfl h2
      | cons y ys => rfl
    | cons x2 t2 =>
      show joinNl (x :: (x2 :: t2) ++ l2) = (x ++ '\n' :: joinNl (x2 :: t2)) ++ _
      rw [show joinNl (x :: (x2 :: t2) ++ l2) =
          x ++ '\n' :: joinNl ((x2 :: t2) ++ l2) from rfl]
      rw [ih (by simp)]
      simp

theorem emailFixText_nil : emailFixText [] = [] := rfl

theorem joinNl_splitNl (s : List Char) : joinNl (splitNl s) = s := by
  induction s with
  | nil => rfl
  | cons c cs ih =>
    by_cases hc : c = '\n'
    · subst hc
      rw [show splitNl ('\n' :: cs) = [] :: splitNl cs from by simp [splitNl]]
      cases hsp : splitNl cs with
      | nil => exact absurd hsp (splitNl_ne_nil cs)
      | cons l0 ls =>
        rw [hsp] at ih
        show [] ++ '\n' :: joinNl (l0 :: ls) = '\n' :: cs
        rw [ih]
        rfl
    · cases hsp : splitNl cs with
      | nil => exact absurd hsp (splitNl_ne_nil cs)
      | cons l0 ls =>
        rw [show splitNl (c :: cs) = (c :: l0) :: ls from by
          simp only [splitNl, if_neg hc, hsp]]
        rw [hsp] at ih
        cases ls with
        | nil =>
          show c :: l0 = c :: cs
          have h3 : l0 = cs := ih
          rw [h3]
        | cons y t =>
          show (c :: l0) ++ '\n' :: joinNl (y :: t) = c :: cs
          have h3 : l0 ++ '\n' :: joinNl (y :: t) = cs := ih
          rw [← h3]
          rfl

theorem emailFixText_append_nl (X Y : List Char) :
    emailFixText (X ++ '\n' :: Y) =
      emailFixText X ++ '\n' :: emailFixText Y := by
  unfold emailFixText
  rw [splitNl_append_gen Y X, List.map_append]
  have hne1 : (splitNl X).map emailFixLine ≠ [] := by
    cases hsp : splitNl X with
    | nil => exact absurd hsp (splitNl_ne_nil X)
    | cons a t => simp
  have hne2 : (splitNl Y).map emailFixLine ≠ [] := by
    cases hsp : splitNl Y with
    | nil => exact absurd hsp (splitNl_ne_nil Y)
    | cons a t => simp
  exact joinNl_append _ hne2 _ hne1

theorem noDotSpace_splitNl (s : List Char) (h : noDotSpace s = true) :
    ∀ l ∈ splitNl s, noDotSpace l = true := by
  induction s with
  | nil =>
    intro l hl
    have h2 : ([[]] : List (List Char)) = splitNl [] := rfl
    rw [← h2] at hl
    simp at hl
    rw [hl]
    rfl
  | cons c cs ih =>
    intro l hl
    by_cases hc : c = '\n'
    · subst hc
      rw [show splitNl ('\n' :: cs) = [] :: splitNl cs from by simp [splitNl]] at hl
      rcases List.mem_cons.mp hl with h1 | h1
      · rw [h1]; rfl
      · exact ih (noDotSpace_tail _ _ h) l h1
    · cases hsp : splitNl cs with
      | nil => exact absurd hsp (splitNl_ne_nil cs)
      | cons l0 ls =>
        rw [show splitNl (c :: cs) = (c :: l0) :: ls from by
          simp only [splitNl, if_neg hc, hsp]] at hl
        rcases List.mem_cons.mp hl with h1 | h1
        · subst h1
          cases cs with
          | nil =>
            have h3 : ([[]] : List (List Char)) = l0 :: ls := hsp
            injection h3 with h4 h5
            rw [← h4]
            rfl
          | cons d ds =>
            by_cases hd : d = '\n'
            · subst hd
              rw [show splitNl ('\n' :: ds) = [] :: splitNl ds from by
                simp [splitNl]] at hsp
              injection hsp with h4 h5
              rw [← h4]
              rfl
            · cases hsp2 : splitNl ds with
              | nil => exact absurd hsp2 (splitNl_ne_nil ds)
              | cons l1 ls1 =>
                rw [show splitNl (d :: ds) = (d :: l1) :: ls1 from by
                  simp only [splitNl, if_neg hd, hsp2]] at hsp
                injection hsp with h4 h5
                rw [← h4]
                have hcd : (!(c == '.' && isJsSpace d)) = true := by
                  simp only [noDotSpace, Bool.and_eq_true] at h
                  exact h.1
                have hdl1 : noDotSpace (d :: l1) = true := by
                  have hmem : (d :: l1) ∈ splitNl (d :: ds) := by
                    rw [show splitNl (d :: ds) = (d :: l1) :: ls1 from by
                      simp only [splitNl, if_neg hd, hsp2]]
                    exact List.mem_cons_self _ _
                  exact ih (noDotSpace_tail _ _ h) _ hmem
                simp only [noDotSpace, Bool.and_eq_true]
                exact ⟨hcd, hdl1⟩
        · refine ih (noDotSpace_tail _ _ h) l ?_
          rw [hsp]
          exact List.mem_cons_of_mem _ h1

theorem emailFixText_noDotSpace (s : List Char) (h : noDotSpace s = true) :
    emailFixText s = s := by
  unfold emailFixText
  have hmap : (splitNl s).map emailFixLine = splitNl s := by
    apply map_id_of_mem
    intro l hl
    exact emailFixLine_id l (noDotSpace_splitNl s h l hl)
  rw [hmap]
  exact joinNl_splitNl s

theorem emailFixText_no_nl (s : List Char) (h : '\n' ∉ s) :
    emailFixText s = emailFixLine s := by
  unfold emailFixText
  rw [splitNl_no_nl s h]
  rfl

theorem emailFixText_joinNl (es : List (List Char)) (h : es ≠ []) :
    emailFixText (joinNl es) = joinNl (es.map emailFixText) := by
  induction es with
  | nil => exact absurd rfl h
  | cons e t ih =>
    cases t with
    | nil => rfl
    | cons e2 t2 =>
      show emailFixText (e ++ '\n' :: joinNl (e2 :: t2)) = _
      rw [emailFixText_append_nl, ih (by simp)]
      rfl

theorem joinNl_all_nil (es : List (List Char)) (h : ∀ e ∈ es, e = []) :
    ∀ c ∈ joinNl es, c = '\n' := by
  induction es with
  | nil =>
    intro c hc
    simp [joinNl] at hc
  | cons e t ih =>
    cases t with
    | nil =>
      intro c hc
      rw [h e (List.mem_cons_self e [])] at hc
      simp [joinNl] at hc
    | cons e2 t2 =>
      intro c hc
      rw [show joinNl (e :: e2 :: t2) = e ++ '\n' :: joinNl (e2 :: t2) from rfl,
        h e (List.mem_cons_self _ _)] at hc
      simp only [List.nil_append, List.mem_cons] at hc
      rcases hc with h1 | h1
      · exact h1
      · exact ih (fun x hx => h x (List.mem_cons_of_mem e hx)) c h1

theorem noDotSpace_of_no_dot (s : List Char) (h : '.' ∉ s) :
    noDotSpace s = true := by
  induction s with
  | nil => rfl
  | cons c cs ih =>
    cases cs with
    | nil => rfl
    | cons d ds =>
      simp only [noDotSpace, Bool.and_eq_true]
      constructor
      · have hc : ¬ c = '.' := fun hc => h (hc ▸ List.mem_cons_self c _)
        simp [hc]
      · exact ih (fun hm => h (List.mem_cons_of_mem c hm))

theorem fixDotSpace_sep (a : List Char) :
    ∀ rest : List Char, noDotSpace a = true →
      (∀ c, rest.head? = some c → isJsSpace c = false) →
      ∃ g, (∀ c ∈ g, isJsSpace c = true) ∧
        fixDotSpace (a ++ ' ' :: rest) = a ++ g ++ fixDotSpace rest := by
  induction a with
  | nil =>
    intro rest _ _
    refine ⟨[' '], ?_, ?_⟩
    · intro c hc
      simp at hc
      subst hc
      decide
    · rw [List.nil_append,
        fixDotSpace_cons_neg ' ' rest (by rintro ⟨h1, _⟩; exact absurd h1 (by decide))]
      rfl
  | cons c cs ih =>
    intro rest ha hr
    cases cs with
    | nil =>
      by_cases hc : c = '.'
      · subst hc
        rw [show ('.' :: []) ++ ' ' :: rest = '.' :: ' ' :: rest from rfl]
        rw [fixDotSpace_cons_pos '.' (' ' :: rest)
          ⟨rfl, by simp only [startsWithSpace, List.head?]; decide⟩]
        have hdw : (' ' :: rest).dropWhile isJsSpace = rest := by
          rw [List.dropWhile_cons_of_pos (by decide)]
          cases hrest : rest with
          | nil => rfl
          | cons r rs =>
            rw [List.dropWhile_cons_of_neg]
            have := hr r (by rw [hrest]; rfl)
            simp [this]
        rw [hdw]
        exact ⟨[], by simp, by simp⟩
      · rw [show (c :: []) ++ ' ' :: rest = c :: ' ' :: rest from rfl]
        rw [fixDotSpace_cons_neg c (' ' :: rest) (by rintro ⟨h1, _⟩; exact hc h1)]
        rw [fixDotSpace_cons_neg ' ' rest (by rintro ⟨h1, _⟩; exact absurd h1 (by decide))]
        exact ⟨[' '], by intro x hx; simp at hx; subst hx; decide, by simp⟩
    | cons d ds =>
      have hnd : ¬(c = '.' ∧ startsWithSpace ((d :: ds) ++ ' ' :: rest) = true) := by
        rintro ⟨hc, hsw⟩
        subst hc
        have h1 : (!('.' == '.' && isJsSpace d)) = true := by
          simp only [noDotSpace, Bool.and_eq_true] at ha
          exact ha.1
        simp only [beq_self_eq_true, Bool.true_and, Bool.not_eq_true'] at h1
        simp only [List.cons_append, startsWithSpace, List.head?] at hsw
        rw [h1] at hsw
        exact Bool.false_ne_true hsw
      rw [List.cons_append, fixDotSpace_cons_neg c ((d :: ds) ++ ' ' :: rest) hnd]
      obtain ⟨g, hg, heq⟩ := ih rest (noDotSpace_tail c (d :: ds) ha) hr
      rw [heq]
      exact ⟨g, hg, by simp⟩

theorem fixDotSpace_line (as : List (List Char)) :
    ∀ a0 : List Char, noDotSpace a0 = true → a0 ≠ [] →
      (∀ a ∈ as, noDotSpace a = true ∧ a ≠ [] ∧
        (∀ c, a.head? = some c → isJsSpace c = false)) →
      wsSpaced a0 as (fixDotSpace (a0 ++ (as.map (fun x => ' ' :: x)).flatten)) := by
  induction as with
  | nil =>
    intro a0 h0 _ _
    show fixDotSpace (a0 ++ ([] : List (List Char)).flatten) = a0
    rw [show (([] : List (List Char)).flatten) = ([] : List Char) from rfl,
      List.append_nil]
    exact fixDotSpace_id a0 h0
  | cons a1 t ih =>
    intro a0 h0 h0ne has
    obtain ⟨h1nd, h1ne, h1h⟩ := has a1 (List.mem_cons_self _ _)
    have hflat : (((a1 :: t).map (fun x => ' ' :: x)).flatten) =
        ' ' :: (a1 ++ (t.map (fun x => ' ' :: x)).flatten) := by simp
    rw [hflat]
    have hrh : ∀ c, (a1 ++ (t.map (fun x => ' ' :: x)).flatten).head? = some c →
        isJsSpace c = false := by
      intro c hc
      cases ha1 : a1 with
      | nil => exact absurd ha1 h1ne
      | cons x xs =>
        rw [ha1] at hc
        simp only [List.cons_append, List.head?] at hc
        have hx : x = c := by injection hc
        subst hx
        exact h1h x (by rw [ha1]; rfl)
    obtain ⟨g, hg, heq⟩ :=
      fixDotSpace_sep a0 (a1 ++ (t.map (fun x => ' ' :: x)).flatten) h0 hrh
    rw [heq]
    exact ⟨g, _, hg, ih a1 h1nd h1ne (fun a hm => has a (List.mem_cons_of_mem _ hm)), rfl⟩

theorem nl_space_contra (h : isJsSpace '\n' = false) : False := by
  rw [show isJsSpace '\n' = true from by decide] at h
  simp at h

theorem mem_split_first_nl (s : List Char) (h : '\n' ∈ s) :
    ∃ u v, s = u ++ '\n' :: v ∧ '\n' ∉ u := by
  induction s with
  | nil => simp at h
  | cons c cs ih =>
    by_cases hc : c = '\n'
    · subst hc
      exact ⟨[], cs, rfl, by simp⟩
    · have h2 : '\n' ∈ cs := by
        rcases List.mem_cons.mp h with h1 | h1
        · exact absurd h1.symm hc
        · exact h1
      obtain ⟨u, v, heq, hu⟩ := ih h2
      refine ⟨c :: u, v, by rw [heq]; rfl, ?_⟩
      intro hm
      rcases List.mem_cons.mp hm with h1 | h1
      · exact hc h1.symm
      · exact hu h1

theorem split_first_nl_piece (xs : List (List Char)) :
    (∀ x ∈ xs, '\n' ∉ x) ∨
    ∃ pre xj post, xs = pre ++ xj :: post ∧ (∀ x ∈ pre, '\n' ∉ x) ∧ '\n' ∈ xj := by
  induction xs with
  | nil => exact Or.inl (by simp)
  | cons x t ih =>
    by_cases hx : '\n' ∈ x
    · exact Or.inr ⟨[], x, t, rfl, by simp, hx⟩
    · rcases ih with h | ⟨pre, xj, post, heq, hpre, hxj⟩
      · refine Or.inl ?_
        intro y hy
        rcases List.mem_cons.mp hy with h1 | h1
        · rw [h1]; exact hx
        · exact h y h1
      · refine Or.inr ⟨x :: pre, xj, post, by rw [heq]; rfl, ?_, hxj⟩
        intro y hy
        rcases List.mem_cons.mp hy with h1 | h1
        · rw [h1]; exact hx
        · exact hpre y h1

theorem foldl_carefulConcat_flatten (es : List (List Char)) :
    ∀ x : List Char, x ≠ [] →
      (∀ c, x.getLast? = some c → isJsSpace c = false) →
      (∀ e ∈ es, e ≠ [] ∧ trim e = e) →
      es.foldl carefulConcat x = x ++ (es.map (fun e => ' ' :: e)).flatten := by
  induction es with
  | nil =>
    intro x _ _ _
    simp
  | cons e et ih =>
    intro x hx hxl hes
    obtain ⟨hene, hetrim⟩ := hes e (List.mem_cons_self _ _)
    have hcc : carefulConcat x e = x ++ ' ' :: e := by
      unfold carefulConcat
      rw [if_pos]
      refine ⟨?_, ?_, ?_, ?_⟩
      · cases x with
        | nil => exact absurd rfl hx
        | cons c cs => simp
      · cases e with
        | nil => exact absurd rfl hene
        | cons c cs => simp
      · unfold endsWithSpace
        cases hgl : x.getLast? with
        | none => rfl
        | some c => exact hxl c hgl
      · unfold startsWithSpace
        cases he : e with
        | nil => exact absurd he hene
        | cons c cs =>
          show isJsSpace c = false
          refine trim_inv_head e ?_ c ?_
          · exact hetrim
          · rw [he]; rfl
    have hgl2 : ∀ c, (x ++ ' ' :: e).getLast? = some c → isJsSpace c = false := by
      intro c hc
      have hsf : (x ++ ' ' :: e).getLast? = e.getLast? :=
        getLast?_of_suffix e _ ⟨x ++ [' '], by simp⟩ hene
      rw [hsf] at hc
      exact getLast_not_space_of_trim_eq e hetrim c hc
    rw [List.foldl_cons, hcc,
      ih (x ++ ' ' :: e) (by simp) hgl2
        (fun y hy => hes y (List.mem_cons_of_mem _ hy))]
    simp

theorem emailFixText_chain (n : Nat) :
    ∀ (a0 : List Char) (xs : List (List Char)),
      (a0 ++ (xs.map (fun x => ' ' :: x)).flatten).length ≤ n →
      noDotSpace a0 = true → a0 ≠ [] →
      (∀ c, a0.getLast? = some c → isJsSpace c = false) →
      (∀ x ∈ xs, noDotSpace x = true ∧ x ≠ [] ∧ trim x = x) →
      wsSpaced a0 xs
        (emailFixText (a0 ++ (xs.map (fun x => ' ' :: x)).flatten)) := by
  induction n with
  | zero =>
    intro a0 xs hlen _ hne _ _
    exfalso
    cases a0 with
    | nil => exact hne rfl
    | cons c cs => simp at hlen
  | succ n ih =>
    intro a0 xs hlen h0 h0ne h0l hxs
    by_cases hnl : '\n' ∈ a0
    · obtain ⟨u, v, heq, hu⟩ := mem_split_first_nl a0 hnl
      subst heq
      have hvne : v ≠ [] := by
        intro hv
        subst hv
        have hgl : (u ++ '\n' :: ([] : List Char)).getLast? = some '\n' := by
          rw [show u ++ '\n' :: ([] : List Char) = u ++ ['\n'] from rfl]
          simp
        exact nl_space_contra (h0l '\n' hgl)
      have hstr : (u ++ '\n' :: v) ++ (xs.map (fun x => ' ' :: x)).flatten =
          u ++ '\n' :: (v ++ (xs.map (fun x => ' ' :: x)).flatten) := by simp
      rw [hstr, emailFixText_append_nl]
      have hEu : emailFixText u = u :=
        emailFixText_noDotSpace u (noDotSpace_append_left u ('\n' :: v) h0)
      rw [hEu]
      have hlen2 : (v ++ (xs.map (fun x => ' ' :: x)).flatten).length ≤ n := by
        simp only [List.length_append, List.length_cons] at hlen ⊢
        omega
      have hvnd : noDotSpace v = true :=
        noDotSpace_append_right (u ++ ['\n']) v (by simpa using h0)
      have hvl : ∀ c, v.getLast? = some c → isJsSpace c = false := by
        intro c hc
        refine h0l c ?_
        rw [getLast?_of_suffix v (u ++ '\n' :: v) ⟨u ++ ['\n'], by simp⟩ hvne]
        exact hc
      have hrec := ih v xs hlen2 hvnd hvne hvl hxs
      have hlift := wsSpaced_head_ext (u ++ ['\n']) v xs _ hrec
      simpa using hlift
    · rcases split_first_nl_piece xs with hall | ⟨pre, xj, post, hxeq, hpre, hxj⟩
      · have hFnl : '\n' ∉ a0 ++ (xs.map (fun x => ' ' :: x)).flatten := by
          intro hm
          rcases List.mem_append.mp hm with h1 | h1
          · exact hnl h1
          · obtain ⟨l, hl, hml⟩ := List.mem_flatten.mp h1
            obtain ⟨x, hxm, hxl⟩ := List.mem_map.mp hl
            rw [← hxl] at hml
            rcases List.mem_cons.mp hml with h2 | h2
            · exact absurd h2 (by decide)
            · exact hall x hxm h2
        rw [emailFixText_no_nl _ hFnl]
        unfold emailFixLine
        split
        · refine fixDotSpace_line xs a0 h0 h0ne ?_
          intro a ha
          obtain ⟨hand, hane, hatrim⟩ := hxs a ha
          exact ⟨hand, hane, fun c hc => trim_inv_head a hatrim c hc⟩
        · exact wsSpaced_spaces xs a0
      · subst hxeq
        obtain ⟨hjnd, hjne, hjtrim⟩ :=
          hxs xj (List.mem_append.mpr (Or.inr (List.mem_cons_self _ _)))
        obtain ⟨uj, vj, hjeq, hujnl⟩ := mem_split_first_nl xj hxj
        have hujne : uj ≠ [] := by
          intro hun
          rw [hun] at hjeq
          have hh : xj.head? = some '\n' := by rw [hjeq]; rfl
          exact nl_space_contra (trim_inv_head xj hjtrim '\n' hh)
        have hvjne : vj ≠ [] := by
          intro hvn
          rw [hvn] at hjeq
          have hgl : xj.getLast? = some '\n' := by
            rw [hjeq, show uj ++ '\n' :: ([] : List Char) = uj ++ ['\n'] from rfl]
            simp
          exact nl_space_contra (getLast_not_space_of_trim_eq xj hjtrim '\n' hgl)
        subst hjeq
        have hstr : a0 ++ (((pre ++ (uj ++ '\n' :: vj) :: post).map
              (fun x => ' ' :: x)).flatten) =
            (a0 ++ (pre.map (fun x => ' ' :: x)).flatten ++ ' ' :: uj) ++ '\n' ::
              (vj ++ (post.map (fun x => ' ' :: x)).flatten) := by
          simp
        have hL0nl : '\n' ∉
            a0 ++ (pre.map (fun x => ' ' :: x)).flatten ++ ' ' :: uj := by
          intro hm
          rcases List.mem_append.mp hm with h1 | h1
          · rcases List.mem_append.mp h1 with h2 | h2
            · exact hnl h2
            · obtain ⟨l, hl, hml⟩ := List.mem_flatten.mp h2
              obtain ⟨x, hxm, hxl⟩ := List.mem_map.mp hl
              rw [← hxl] at hml
              rcases List.mem_cons.mp hml with h3 | h3
              · exact absurd h3 (by decide)
              · exact hpre x hxm h3
          · rcases List.mem_cons.mp h1 with h2 | h2
            · exact absurd h2 (by decide)
            · exact hujnl h2
        have hshape : a0 ++ (pre.map (fun x => ' ' :: x)).flatten ++ ' ' :: uj =
            a0 ++ (((pre ++ [uj]).map (fun x => ' ' :: x)).flatten) := by
          simp
        have hfinal : emailFixText (a0 ++ (((pre ++ (uj ++ '\n' :: vj) :: post).map
              (fun x => ' ' :: x)).flatten)) =
            emailFixLine (a0 ++ (((pre ++ [uj]).map (fun x => ' ' :: x)).flatten)) ++
              '\n' :: emailFixText (vj ++ (post.map (fun x => ' ' :: x)).flatten) := by
          rw [hstr, emailFixText_append_nl, emailFixText_no_nl _ hL0nl, hshape]
        rw [hfinal]
        have hatoms : ∀ a ∈ pre ++ [uj], noDotSpace a = true ∧ a ≠ [] ∧
            (∀ c, a.head? = some c → isJsSpace c = false) := by
          intro a ha
          rcases List.mem_append.mp ha with h1 | h1
          · obtain ⟨hand, hane, hatrim⟩ :=
              hxs a (List.mem_append.mpr (Or.inl h1))
            exact ⟨hand, hane, fun c hc => trim_inv_head a hatrim c hc⟩
          · have ha2 : a = uj := by simpa using h1
            rw [ha2]
            refine ⟨noDotSpace_append_left uj ('\n' :: vj) hjnd, hujne, ?_⟩
            intro c hc
            refine trim_inv_head (uj ++ '\n' :: vj) hjtrim c ?_
            cases huj : uj with
            | nil => exact absurd huj hujne
            | cons d ds =>
              rw [huj] at hc
              simp only [List.head?] at hc
              simp only [List.cons_append, List.head?]
              exact hc
        have hline : wsSpaced a0 (pre ++ [uj])
            (emailFixLine (a0 ++ (((pre ++ [uj]).map (fun x => ' ' :: x)).flatten))) := by
          unfold emailFixLine
          split
          · exact fixDotSpace_line (pre ++ [uj]) a0 h0 h0ne hatoms
          · exact wsSpaced_spaces (pre ++ [uj]) a0
        have ha0len : 1 ≤ a0.length := by
          cases a0 with
          | nil => exact absurd rfl h0ne
          | cons c cs => simp
        have hlen2 : (vj ++ (post.map (fun x => ' ' :: x)).flatten).length ≤ n := by
          simp only [List.length_append, List.length_cons, List.map_append,
            List.flatten_append, List.map_cons, List.flatten_cons] at hlen ⊢
          omega
        have hvjnd : noDotSpace vj = true :=
          noDotSpace_append_right (uj ++ ['\n']) vj (by simpa using hjnd)
        have hvjl : ∀ c, vj.getLast? = some c → isJsSpace c = false := by
          intro c hc
          refine getLast_not_space_of_trim_eq (uj ++ '\n' :: vj) hjtrim c ?_
          rw [getLast?_of_suffix vj (uj ++ '\n' :: vj) ⟨uj ++ ['\n'], by simp⟩ hvjne]
          exact hc
        have hrec := ih vj post hlen2 hvjnd hvjne hvjl
          (fun x hx => hxs x (List.mem_append.mpr
            (Or.inr (List.mem_cons_of_mem _ hx))))
        exact wsSpaced_graft pre a0 uj vj post _ _ hline hrec

/-- Each entry of a restored array is either empty or carries a consecutive
run of the output pieces, whitespace-glued; the runs concatenate to the
full piece list in order. -/
def entryChains : List (List Char) → List (List Char) → Prop
  | [], pieces => pieces = []
  | e :: es, pieces =>
    (e = [] ∧ entryChains es pieces) ∨
    (∃ h ps rest, pieces = h :: ps ++ rest ∧ h ≠ [] ∧ wsSpaced h ps e ∧
      entryChains es rest)

theorem entryChains_nil_entries (es : List (List Char)) (h : entryChains es []) :
    ∀ e ∈ es, e = [] := by
  induction es with
  | nil =>
    intro e he
    simp at he
  | cons x t ih =>
    rcases h with ⟨hx, hrec⟩ | ⟨hh, ps, rest, hp, _, _, _⟩
    · intro e he
      rcases List.mem_cons.mp he with h1 | h1
      · rw [h1]; exact hx
      · exact ih hrec e h1
    · exact absurd hp (by simp)

theorem entryChains_of_all_nil (es : List (List Char)) (h : ∀ e ∈ es, e = []) :
    entryChains es [] := by
  induction es with
  | nil => rfl
  | cons x t ih =>
    exact Or.inl ⟨h x (List.mem_cons_self _ _),
      ih (fun e he => h e (List.mem_cons_of_mem _ he))⟩

theorem entryChains_append (es1 : List (List Char)) :
    ∀ (ps1 es2 ps2 : List (List Char)),
      entryChains es1 ps1 → entryChains es2 ps2 →
      entryChains (es1 ++ es2) (ps1 ++ ps2) := by
  induction es1 with
  | nil =>
    intro ps1 es2 ps2 h1 h2
    have hps : ps1 = [] := h1
    subst hps
    simpa using h2
  | cons e t ih =>
    intro ps1 es2 ps2 h1 h2
    rcases h1 with ⟨he, hrec⟩ | ⟨hh, ps, rest, hp, hne, hw, hrec⟩
    · exact Or.inl ⟨he, ih ps1 es2 ps2 hrec h2⟩
    · refine Or.inr ⟨hh, ps, rest ++ ps2, ?_, hne, hw, ih rest es2 ps2 hrec h2⟩
      rw [hp]
      simp

theorem mask_entryChains (ls : List (List Char)) :
    ∀ rs : List (List Char), rs.length = ls.length →
      List.Forall₂ (fun l x => trim l = [] → x = []) ls rs →
      (∀ p ∈ maskNonBlank ls rs, emailFixText p = p) →
      entryChains (rs.map emailFixText)
        ((maskNonBlank ls rs).filter (fun p => p ≠ [])) := by
  induction ls with
  | nil =>
    intro rs hlen _ _
    have hrs : rs = [] := List.eq_nil_of_length_eq_zero (by rw [hlen]; rfl)
    subst hrs
    rfl
  | cons l lt ih =>
    intro rs hlen hfa hid
    cases rs with
    | nil => simp at hlen
    | cons x xs =>
      cases hfa with
      | cons hhead htail =>
        by_cases hb : trim l = []
        · have hx : x = [] := hhead hb
          subst hx
          have hmask : maskNonBlank (l :: lt) ([] :: xs) = maskNonBlank lt xs := by
            simp [maskNonBlank, hb]
          rw [hmask] at hid ⊢
          exact Or.inl ⟨emailFixText_nil,
            ih xs (by simpa using hlen) htail hid⟩
        · have hmask : maskNonBlank (l :: lt) (x :: xs) = x :: maskNonBlank lt xs := by
            simp [maskNonBlank, hb]
          rw [hmask] at hid ⊢
          by_cases hx : x = []
          · subst hx
            rw [List.filter_cons_of_neg (by simp)]
            exact Or.inl ⟨emailFixText_nil,
              ih xs (by simpa using hlen) htail
                (fun p hp => hid p (List.mem_cons_of_mem _ hp))⟩
          · rw [List.filter_cons_of_pos (by simpa using hx)]
            refine Or.inr ⟨x, [], (maskNonBlank lt xs).filter (fun p => p ≠ []),
              by simp, hx, ?_, ?_⟩
            · show emailFixText x = x
              exact hid x (List.mem_cons_self _ _)
            · exact ih xs (by simpa using hlen) htail
                (fun p hp => hid p (List.mem_cons_of_mem _ hp))

theorem filter_replicate_nil (k : Nat) :
    (List.replicate k ([] : List Char)).filter (fun p => p ≠ []) = [] := by
  induction k with
  | zero => rfl
  | succ k ih =>
    rw [List.replicate_succ, List.filter_cons_of_neg (by simp)]
    exact ih

theorem entryChains_joinNl (es : List (List Char)) :
    ∀ (p : List Char) (ps : List (List Char)),
      entryChains es (p :: ps) →
      ∃ g0 y gE, (∀ c ∈ g0, isJsSpace c = true) ∧ (∀ c ∈ gE, isJsSpace c = true) ∧
        wsSpaced p ps y ∧ joinNl es = g0 ++ y ++ gE := by
  induction es with
  | nil =>
    intro p ps h
    have h2 : p :: ps = [] := h
    simp at h2
  | cons e t ih =>
    intro p ps h
    rcases h with ⟨he, hrec⟩ | ⟨hh, psI, rest, hp, hne, hw, hrec⟩
    · subst he
      cases t with
      | nil =>
        have h2 : p :: ps = [] := hrec
        simp at h2
      | cons e2 t2 =>
        obtain ⟨g0, y, gE, hg0, hgE, hwy, hjoin⟩ := ih p ps hrec
        refine ⟨'\n' :: g0, y, gE, ?_, hgE, hwy, ?_⟩
        · intro c hc
          rcases List.mem_cons.mp hc with h1 | h1
          · rw [h1]; decide
          · exact hg0 c h1
        · show [] ++ '\n' :: joinNl (e2 :: t2) = ('\n' :: g0) ++ y ++ gE
          rw [List.nil_append, hjoin]
          rfl
    · have hinj := hp
      injection hinj with hph hps
      cases rest with
      | nil =>
        have hps2 : ps = psI := by rw [hps]; simp
        have hw2 : wsSpaced p ps e := by
          rw [hps2, hph]
          exact hw
        have hallnil : ∀ x ∈ t, x = [] := entryChains_nil_entries t hrec
        cases t with
        | nil =>
          exact ⟨[], e, [], by simp, by simp, hw2, by simp [joinNl]⟩
        | cons e2 t2 =>
          refine ⟨[], e, '\n' :: joinNl (e2 :: t2), by simp, ?_, hw2, ?_⟩
          · intro c hc
            rcases List.mem_cons.mp hc with h1 | h1
            · rw [h1]; decide
            · have := joinNl_all_nil (e2 :: t2) (fun x hx => hallnil x hx) c h1
              rw [this]; decide
          · show e ++ '\n' :: joinNl (e2 :: t2) = [] ++ e ++ '\n' :: joinNl (e2 :: t2)
            simp
      | cons r1 rs =>
        cases t with
        | nil =>
          have h2 : r1 :: rs = [] := hrec
          simp at h2
        | cons e2 t2 =>
          obtain ⟨g0, y2, gE, hg0, hgE, hwy, hjoin⟩ := ih r1 rs hrec
          have hw2 : wsSpaced p (psI ++ r1 :: rs) (e ++ ('\n' :: g0) ++ y2) := by
            refine wsSpaced_concat psI p r1 rs e y2 ('\n' :: g0) ?_ hwy ?_
            · rw [hph]; exact hw
            · intro c hc
              rcases List.mem_cons.mp hc with h1 | h1
              · rw [h1]; decide
              · exact hg0 c h1
          refine ⟨[], e ++ ('\n' :: g0) ++ y2, gE, by simp, hgE, ?_, ?_⟩
          · rw [hps]
            exact hw2
          · show e ++ '\n' :: joinNl (e2 :: t2) = [] ++ (e ++ ('\n' :: g0) ++ y2) ++ gE
            rw [hjoin]
            simp

theorem correlate_entryChains (ls segs : List (List Char))
    (hsegs : ∀ s ∈ segs, noDotSpace s = true ∧ s ≠ [] ∧ trim s = s)
    (hnbc : 1 ≤ nonBlankCount ls) :
    entryChains ((appendExtras (correlate ls segs).1 (correlate ls segs).2.1).map
      emailFixText) segs := by
  by_cases hlo : (correlate ls segs).2.1 = []
  · rw [hlo]
    rw [show appendExtras (correlate ls segs).1 [] = (correlate ls segs).1 from rfl]
    have hmask := correlate_mask ls segs
    have hlenr := correlate_length ls segs
    have hfa := correlate_blank ls segs
    have htake : segs.take (nonBlankCount ls) = segs := by
      have hdropnil := correlate_leftover ls segs
      rw [hlo] at hdropnil
      have hlength := congrArg List.length hdropnil
      simp only [List.length_nil, List.length_drop] at hlength
      exact List.take_all_of_le (by omega)
    have hid : ∀ p ∈ maskNonBlank ls (correlate ls segs).1, emailFixText p = p := by
      rw [hmask]
      intro p hp
      rcases List.mem_append.mp hp with h1 | h1
      · exact emailFixText_noDotSpace p (hsegs p (List.take_subset _ _ h1)).1
      · rw [List.eq_of_mem_replicate h1]
        exact emailFixText_nil
    have hchain := mask_entryChains ls (correlate ls segs).1 hlenr hfa hid
    rw [hmask, htake] at hchain
    have hfil : ((segs ++ List.replicate (nonBlankCount ls - segs.length)
        ([] : List Char)).filter (fun p => p ≠ [])) = segs := by
      rw [List.filter_append, filter_replicate_nil, List.append_nil]
      exact List.filter_eq_self.mpr (fun a ha => by simp [(hsegs a ha).2.1])
    rw [hfil] at hchain
    exact hchain
  · have h2 : nonBlankCount ls ≤ segs.length := by
      by_contra hgt
      push_neg at hgt
      refine hlo ?_
      rw [correlate_leftover]
      exact List.drop_eq_nil_of_le (le_of_lt hgt)
    obtain ⟨ls1, lk, ls2, r1, sLast, r2, hlseq, hlk, hls2, hdrop, hcorr, hlen1,
      hlen2, hallr2, hmask1, hfa1, hnbc1⟩ := correlate_split ls segs hnbc h2
    have hsLmem : sLast ∈ segs := by
      have hmem : sLast ∈ segs.drop (nonBlankCount ls - 1) := by
        rw [hdrop]
        exact List.mem_cons_self _ _
      exact List.drop_subset _ _ hmem
    obtain ⟨hsLnd, hsLne, hsLtrim⟩ := hsegs sLast hsLmem
    have hlomem : ∀ e ∈ (correlate ls segs).2.1, e ∈ segs := by
      rw [correlate_leftover]
      intro e he
      exact List.drop_subset _ _ he
    rw [hcorr, appendExtras_spec r1 sLast r2 _ hsLne hallr2]
    have hfold : (correlate ls segs).2.1.foldl carefulConcat sLast =
        sLast ++ ((correlate ls segs).2.1.map (fun e => ' ' :: e)).flatten :=
      foldl_carefulConcat_flatten _ sLast hsLne
        (fun c hc => getLast_not_space_of_trim_eq sLast hsLtrim c hc)
        (fun e he => ⟨(hsegs e (hlomem e he)).2.1, (hsegs e (hlomem e he)).2.2⟩)
    have hc1 : entryChains (r1.map emailFixText)
        (segs.take (nonBlankCount ls - 1)) := by
      have hid1 : ∀ p ∈ maskNonBlank ls1 r1, emailFixText p = p := by
        rw [hmask1]
        intro p hp
        exact emailFixText_noDotSpace p (hsegs p (List.take_subset _ _ hp)).1
      have hch := mask_entryChains ls1 r1 hlen1 hfa1 hid1
      rw [hmask1] at hch
      rw [List.filter_eq_self.mpr (fun a ha => by
        simp [(hsegs a (List.take_subset _ _ ha)).2.1])] at hch
      exact hch
    have hc2 : entryChains
        [emailFixText ((correlate ls segs).2.1.foldl carefulConcat sLast)]
        (sLast :: (correlate ls segs).2.1) := by
      refine Or.inr ⟨sLast, (correlate ls segs).2.1, [], by simp, hsLne, ?_, rfl⟩
      rw [hfold]
      exact emailFixText_chain _ sLast (correlate ls segs).2.1 le_rfl hsLnd hsLne
        (fun c hc => getLast_not_space_of_trim_eq sLast hsLtrim c hc)
        (fun x hx => ⟨(hsegs x (hlomem x hx)).1, (hsegs x (hlomem x hx)).2.1,
          (hsegs x (hlomem x hx)).2.2⟩)
    have hc3 : entryChains (r2.map emailFixText) [] := by
      refine entryChains_of_all_nil _ ?_
      intro e he
      obtain ⟨y, hy, hye⟩ := List.mem_map.mp he
      rw [← hye, hallr2 y hy]
      exact emailFixText_nil
    have hca := entryChains_append (r1.map emailFixText)
      (segs.take (nonBlankCount ls - 1))
      ([emailFixText ((correlate ls segs).2.1.foldl carefulConcat sLast)] ++
        r2.map emailFixText)
      ((sLast :: (correlate ls segs).2.1) ++ []) hc1
      (entryChains_append _ _ _ _ hc2 hc3)
    have hpieces : segs.take (nonBlankCount ls - 1) ++
        ((sLast :: (correlate ls segs).2.1) ++ []) = segs := by
      rw [List.append_nil, correlate_leftover, ← hdrop]
      exact List.take_append_drop _ _
    rw [hpieces] at hca
    simpa using hca

theorem isJsSpace_not_term (c : Char) (h : isJsSpace c = true) :
    isTerm c = false := by
  by_cases ht : isTerm c = true
  · rw [isTerm_not_space c ht] at h
    simp at h
  · simpa using ht

theorem dropWhile_eq_self_of_head (P : Char → Bool) (l : List Char)
    (h : ∀ c, l.head? = some c → P c = false) : l.dropWhile P = l := by
  cases l with
  | nil => rfl
  | cons c cs =>
    rw [List.dropWhile_cons_of_neg (by simp [h c rfl])]

theorem rawSegments_chain (n : Nat) :
    ∀ (as : List (List Char)) (a g y : List Char),
      wsSpaced a as y →
      (∀ c ∈ g, isJsSpace c = true) →
      (∀ p ∈ a :: as, p ≠ [] ∧ trim p = p ∧
        (∀ c, p.head? = some c → isTerm c = false) ∧
        ∃ A T, p = A ++ T ∧ (∀ c ∈ A, isTerm c = false) ∧
          (∀ c ∈ T, isTerm c = true)) →
      InnerT (a :: as) →
      (g ++ y).length ≤ n →
      (rawSegmentsFuel n (g ++ y)).map trim = a :: as := by
  induction n with
  | zero =>
    intro as a g y hws hg hprops _ hlen
    exfalso
    obtain ⟨hane, _, _, _⟩ := hprops a (List.mem_cons_self _ _)
    have hyne : y ≠ [] := wsSpaced_ne_nil a as y hws hane
    cases hyc : y with
    | nil => exact hyne hyc
    | cons d ds =>
      rw [hyc] at hlen
      simp at hlen
  | succ n ih =>
    intro as a g y hws hg hprops hInner hlen
    obtain ⟨hane, hatrim, hahead, A, T, hAT, hA, hT⟩ :=
      hprops a (List.mem_cons_self _ _)
    have hAne : A ≠ [] := by
      intro hAnil
      rw [hAnil, List.nil_append] at hAT
      cases hTc : T with
      | nil =>
        rw [hTc] at hAT
        exact hane hAT
      | cons t ts =>
        have hh : a.head? = some t := by rw [hAT, hTc]; rfl
        have hterm := hT t (by rw [hTc]; exact List.mem_cons_self _ _)
        rw [hahead t hh] at hterm
        simp at hterm
    have hyhead : ∀ c, y.head? = some c → isTerm c = false := by
      intro c hc
      rw [wsSpaced_head a as y hws hane] at hc
      exact hahead c hc
    have hshead : ∀ c, (g ++ y).head? = some c → isTerm c = false := by
      intro c hc
      cases hgc : g with
      | cons d g2 =>
        rw [hgc, List.cons_append] at hc
        simp only [List.head?] at hc
        have hdc : d = c := by injection hc
        rw [← hdc]
        exact isJsSpace_not_term d (hg d (by rw [hgc]; exact List.mem_cons_self _ _))
      | nil =>
        rw [hgc, List.nil_append] at hc
        exact hyhead c hc
    have hsdrop : (g ++ y).dropWhile isTerm = g ++ y :=
      dropWhile_eq_self_of_head isTerm (g ++ y) hshead
    have hyne : y ≠ [] := wsSpaced_ne_nil a as y hws hane
    cases hgy : g ++ y with
    | nil =>
      exfalso
      rcases List.append_eq_nil.mp hgy with ⟨_, hynil⟩
      exact hyne hynil
    | cons c cs =>
      rw [← hgy]
      rw [rawSegmentsFuel_succ_cons n (g ++ y) c cs (by rw [hsdrop, hgy])]
      rw [← hgy]
      have hgAterm : ∀ d ∈ g ++ A, (!isTerm d) = true := by
        intro d hd
        rcases List.mem_append.mp hd with h1 | h1
        · simp [isJsSpace_not_term d (hg d h1)]
        · simp [hA d h1]
      cases as with
      | nil =>
        have hy : y = a := hws
        have hsplit : g ++ y = (g ++ A) ++ (T ++ []) := by
          rw [hy, hAT]
          simp
        have hTv : ∀ d, (T ++ []).head? = some d → (!isTerm d) = false := by
          intro d hd
          rw [List.append_nil] at hd
          cases hTc : T with
          | nil => rw [hTc] at hd; simp at hd
          | cons t ts =>
            rw [hTc] at hd
            simp only [List.head?] at hd
            have htd : t = d := by injection hd
            rw [← htd]
            simp [hT t (by rw [hTc]; exact List.mem_cons_self _ _)]
        rw [hsplit, takeWhile_append_stop _ (g ++ A) (T ++ []) hgAterm hTv,
          dropWhile_append_stop _ (g ++ A) (T ++ []) hgAterm hTv]
        rw [List.append_nil]
        have htT : T.takeWhile isTerm = T := by
          have h2 := takeWhile_append_all isTerm T [] hT
          simpa using h2
        have hdT : T.dropWhile isTerm = [] := by
          have h2 := dropWhile_append_all isTerm T [] hT
          simpa using h2
        rw [htT, hdT, rawSegmentsFuel_nil]
        simp only [List.map_cons, List.map_nil]
        rw [List.append_assoc, ← hAT]
        rw [trim_ws_append g a hg hatrim]
      | cons x xs =>
        obtain ⟨g2, y2, hg2, hws2, hy⟩ := hws
        have hTne : T ≠ [] := by
          intro hTnil
          have hET := InnerT_head a (x :: xs) hInner (by simp)
          unfold endsTerm at hET
          rw [hTnil, List.append_nil] at hAT
          cases hgl : a.getLast? with
          | none =>
            rw [hgl] at hET
            simp at hET
          | some d =>
            rw [hgl] at hET
            have hET2 : isTerm d = true := hET
            have hdA : d ∈ A := by
              rw [← hAT]
              exact getLast?_mem_of_eq a d hgl
            rw [hA d hdA] at hET2
            simp at hET2
        have hxprops := hprops x (List.mem_cons_of_mem a (List.mem_cons_self x xs))
        have hresthead : ∀ d, (g2 ++ y2).head? = some d → isTerm d = false := by
          intro d hd
          cases hg2c : g2 with
          | cons e2 g3 =>
            rw [hg2c, List.cons_append] at hd
            simp only [List.head?] at hd
            have hde : e2 = d := by injection hd
            rw [← hde]
            exact isJsSpace_not_term e2
              (hg2 e2 (by rw [hg2c]; exact List.mem_cons_self _ _))
          | nil =>
            rw [hg2c, List.nil_append] at hd
            rw [wsSpaced_head x xs y2 hws2 hxprops.1] at hd
            exact hxprops.2.2.1 d hd
        have hsplit : g ++ y = (g ++ A) ++ (T ++ (g2 ++ y2)) := by
          rw [hy, hAT]
          simp
        have hTv : ∀ d, (T ++ (g2 ++ y2)).head? = some d → (!isTerm d) = false := by
          intro d hd
          cases hTc : T with
          | nil => exact absurd hTc hTne
          | cons t ts =>
            rw [hTc] at hd
            simp only [List.cons_append, List.head?] at hd
            have htd : t = d := by injection hd
            rw [← htd]
            simp [hT t (by rw [hTc]; exact List.mem_cons_self _ _)]
        have hgyv : ∀ d, (g2 ++ y2).head? = some d → isTerm d = false := hresthead
        rw [hsplit, takeWhile_append_stop _ (g ++ A) (T ++ (g2 ++ y2)) hgAterm hTv,
          dropWhile_append_stop _ (g ++ A) (T ++ (g2 ++ y2)) hgAterm hTv]
        rw [takeWhile_append_stop isTerm T (g2 ++ y2) hT hgyv,
          dropWhile_append_stop isTerm T (g2 ++ y2) hT hgyv]
        have hlen2 : (g2 ++ y2).length ≤ n := by
          have hll := congrArg List.length hsplit
          have hAlen : 1 ≤ A.length := by
            cases hAc : A with
            | nil => exact absurd hAc hAne
            | cons d ds => simp
          simp only [List.length_append] at hll hlen ⊢
          omega
        simp only [List.map_cons]
        rw [ih xs x g2 y2 hws2 hg2
          (fun q hq => hprops q (List.mem_cons_of_mem a hq))
          (InnerT_tail a (x :: xs) hInner) hlen2]
        rw [List.append_assoc, ← hAT]
        rw [trim_ws_append g a hg hatrim]

theorem trim_chain (p : List Char) (ps : List (List Char)) (g0 y gE : List Char)
    (hg0 : ∀ c ∈ g0, isJsSpace c = true) (hgE : ∀ c ∈ gE, isJsSpace c = true)
    (hws : wsSpaced p ps y)
    (hprops : ∀ q ∈ p :: ps, q ≠ [] ∧ trim q = q) :
    trim (g0 ++ y ++ gE) = y := by
  obtain ⟨hpne, hptrim⟩ := hprops p (List.mem_cons_self _ _)
  have hyne : y ≠ [] := wsSpaced_ne_nil p ps y hws hpne
  have hyhead : ∀ c, y.head? = some c → isJsSpace c = false := by
    intro c hc
    rw [wsSpaced_head p ps y hws hpne] at hc
    exact trim_inv_head p hptrim c hc
  have h1 : trimLeft (g0 ++ y ++ gE) = y ++ gE := by
    unfold trimLeft
    rw [List.append_assoc, dropWhile_append_all isJsSpace g0 (y ++ gE) hg0]
    refine dropWhile_eq_self_of_head isJsSpace (y ++ gE) ?_
    intro c hc
    cases hyc : y with
    | nil => exact absurd hyc hyne
    | cons d ds =>
      rw [hyc, List.cons_append] at hc
      simp only [List.head?] at hc
      have hdc : d = c := by injection hc
      rw [← hdc]
      exact hyhead d (by rw [hyc]; rfl)
  show trimRight (trimLeft (g0 ++ y ++ gE)) = y
  rw [h1]
  refine trimRight_append_ws y gE hgE ?_
  intro c hc
  obtain ⟨q, hqm, hql⟩ := wsSpaced_getLast ps p y hws (fun q hq => (hprops q hq).1)
  rw [hql] at hc
  exact getLast_not_space_of_trim_eq q (hprops q hqm).2 c hc

theorem segmentOutput_chain (out2 p : List Char) (ps : List (List Char))
    (g0 y gE : List Char)
    (hg0 : ∀ c ∈ g0, isJsSpace c = true) (hgE : ∀ c ∈ gE, isJsSpace c = true)
    (hws : wsSpaced p ps y) (hout : out2 = g0 ++ y ++ gE)
    (hprops : ∀ q ∈ p :: ps, q ≠ [] ∧ trim q = q ∧
      (∀ c, q.head? = some c → isTerm c = false) ∧
      ∃ A T, q = A ++ T ∧ (∀ c ∈ A, isTerm c = false) ∧
        (∀ c ∈ T, isTerm c = true))
    (hInner : InnerT (p :: ps)) :
    segmentOutput out2 = p :: ps := by
  have htr : trim out2 = y := by
    rw [hout]
    exact trim_chain p ps g0 y gE hg0 hgE hws
      (fun q hq => ⟨(hprops q hq).1, (hprops q hq).2.1⟩)
  have hyne : y ≠ [] :=
    wsSpaced_ne_nil p ps y hws (hprops p (List.mem_cons_self _ _)).1
  have hylen : 0 < y.length := List.length_pos.mpr hyne
  have hraw : (rawSegments y).map trim = p :: ps := by
    have h0 := rawSegments_chain y.length ps p [] y hws (by simp) hprops hInner
      (by simp)
    rw [List.nil_append] at h0
    exact h0
  have hmne : rawSegments y ≠ [] := by
    intro hm
    rw [hm] at hraw
    simp at hraw
  unfold segmentOutput
  simp only
  rw [htr]
  rw [if_pos hylen]
  rw [if_neg hmne]
  rw [hraw]
  have hfil : (p :: ps).filter (fun x => 0 < x.length) = p :: ps := by
    refine List.filter_eq_self.mpr ?_
    intro a ha
    have hane := (hprops a ha).1
    cases hac : a with
    | nil => exact absurd hac hane
    | cons c cs => simp
  rw [hfil]
  rw [if_neg (by simp)]

theorem processedOutputOf_congr (i x y : List Char)
    (h : segmentOutput x = segmentOutput y) :
    processedOutputOf i x = processedOutputOf i y := by
  unfold processedOutputOf restoredArrayOf
  rw [h]

theorem correlate_nil_fst (l : List Char) (t : List (List Char)) :
    (correlate (l :: t) []).1 = [] :: (correlate t []).1 := by
  simp only [correlate]
  by_cases hb : trim l = []
  · rw [if_pos hb]
  · rw [if_neg hb]

theorem correlate_nil_segs (ls : List (List Char)) :
    ∀ e ∈ (correlate ls []).1, e = [] := by
  induction ls with
  | nil =>
    intro e he
    simp [correlate] at he
  | cons l t ih =>
    intro e he
    rw [correlate_nil_fst] at he
    rcases List.mem_cons.mp he with h1 | h1
    · exact h1
    · exact ih e h1

theorem segmentOutput_trim_nil (out : List Char) (h : trim out = []) :
    segmentOutput out = [] := by
  unfold segmentOutput
  simp only
  rw [h]
  simp

theorem segmentOutput_processed (inputHTML outputText : List Char)
    (hnbc : 1 ≤ nonBlankCount (inputLinesOf inputHTML))
    (hsegs : ∀ s ∈ segmentOutput outputText, ∀ c, s.head? = some c →
      isTerm c = false) :
    segmentOutput (processedOutputOf inputHTML outputText) =
      segmentOutput outputText := by
  have hprops0 := segmentOutput_props outputText
  have hsplit0 := segmentOutput_split outputText
  have hInner0 := InnerT_segmentOutput outputText
  cases hsegsc : segmentOutput outputText with
  | nil =>
    have hlo : (correlate (inputLinesOf inputHTML)
        (segmentOutput outputText)).2.1 = [] := by
      rw [hsegsc, correlate_leftover]
      simp
    have hrest : restoredArrayOf inputHTML outputText =
        (correlate (inputLinesOf inputHTML) (segmentOutput outputText)).1 := by
      show appendExtras (correlate (inputLinesOf inputHTML)
        (segmentOutput outputText)).1 (correlate (inputLinesOf inputHTML)
          (segmentOutput outputText)).2.1 = _
      rw [hlo]
      rfl
    have hallnil : ∀ e ∈ restoredArrayOf inputHTML outputText, e = [] := by
      rw [hrest, hsegsc]
      exact correlate_nil_segs (inputLinesOf inputHTML)
    have hallnl : ∀ c ∈ joinNl (restoredArrayOf inputHTML outputText),
        c = '\n' := joinNl_all_nil _ hallnil
    have heft : processedOutputOf inputHTML outputText =
        joinNl (restoredArrayOf inputHTML outputText) := by
      rw [show processedOutputOf inputHTML outputText =
        emailFixText (joinNl (restoredArrayOf inputHTML outputText)) from rfl]
      refine emailFixText_noDotSpace _ (noDotSpace_of_no_dot _ ?_)
      intro hm
      have hdot := hallnl '.' hm
      exact absurd hdot (by decide)
    refine segmentOutput_trim_nil _ ?_
    rw [heft, trim_eq_nil_iff]
    intro c hc
    rw [hallnl c hc]
    decide
  | cons s1 srest =>
    have hEC : entryChains
        ((restoredArrayOf inputHTML outputText).map emailFixText)
        (segmentOutput outputText) :=
      correlate_entryChains (inputLinesOf inputHTML) (segmentOutput outputText)
        (fun s hs => ⟨(hprops0 s hs).2.2, (hprops0 s hs).1, (hprops0 s hs).2.1⟩)
        hnbc
    rw [hsegsc] at hEC
    have hrne : restoredArrayOf inputHTML outputText ≠ [] :=
      restoredArrayOf_ne_nil inputHTML outputText
    have hout : processedOutputOf inputHTML outputText =
        joinNl ((restoredArrayOf inputHTML outputText).map emailFixText) := by
      rw [show processedOutputOf inputHTML outputText =
        emailFixText (joinNl (restoredArrayOf inputHTML outputText)) from rfl]
      exact emailFixText_joinNl _ hrne
    obtain ⟨g0, y, gE, hg0, hgE, hws, hjoin⟩ :=
      entryChains_joinNl _ s1 srest hEC
    refine segmentOutput_chain (processedOutputOf inputHTML outputText) s1 srest
      g0 y gE hg0 hgE hws (by rw [hout, hjoin]) ?_ ?_
    · intro q hq
      rw [← hsegsc] at hq
      obtain ⟨hqne, hqtrim, hqnd⟩ := hprops0 q hq
      obtain ⟨A, T, hAT, hA, hT⟩ := hsplit0 q hq
      exact ⟨hqne, hqtrim, hsegs q hq, A, T, hAT, hA, hT⟩
    · rw [← hsegsc]
      exact hInner0

/-- C8 (amended): the resegmentation of `processTranslationLineBreaks` is
idempotent on every output whose computed segments each begin with a
non-terminator character: under that hypothesis, applying the text
transformation to an output it itself produced for the same input HTML
yields that same text again, so a second pass performs no further rewrite.
(Without the hypothesis the claim fails: a segment reduced by trimming to a
bare terminator is re-split differently on the second pass, see the
counterexample.) -/
theorem C8_conditionalIdempotence (inputHTML outputText : List Char)
    (hsegs : ∀ s ∈ segmentOutput outputText, ∀ c, s.head? = some c →
      isTerm c = false) :
    textTransform inputHTML (textTransform inputHTML outputText) =
      textTransform inputHTML outputText := by
  unfold textTransform
  by_cases hblank : (inputLinesOf inputHTML).all (fun l => trim l = []) = true
  · simp only [if_pos hblank]
  · simp only [if_neg hblank]
    have hnbc : 1 ≤ nonBlankCount (inputLinesOf inputHTML) := by
      by_contra hlt
      push_neg at hlt
      have h0 : nonBlankCount (inputLinesOf inputHTML) = 0 := by omega
      have hall := (nonBlankCount_eq_zero _).mp h0
      refine hblank ?_
      rw [List.all_eq_true]
      intro l hl
      simpa using hall l hl
    exact processedOutputOf_congr inputHTML _ _
      (segmentOutput_processed inputHTML outputText hnbc hsegs)

theorem C8_conditionalIdempotence_witness :
    (∀ s ∈ segmentOutput ('O' :: 'n' :: 'e' :: '.' :: ' ' :: 'T' :: 'w' :: 'o' :: '.' :: []),
      ∀ c, s.head? = some c → isTerm c = false) ∧
    textTransform ('a' :: '<' :: 'b' :: 'r' :: '>' :: 'b' :: [])
        (textTransform ('a' :: '<' :: 'b' :: 'r' :: '>' :: 'b' :: [])
          ('O' :: 'n' :: 'e' :: '.' :: ' ' :: 'T' :: 'w' :: 'o' :: '.' :: [])) =
      textTransform ('a' :: '<' :: 'b' :: 'r' :: '>' :: 'b' :: [])
        ('O' :: 'n' :: 'e' :: '.' :: ' ' :: 'T' :: 'w' :: 'o' :: '.' :: []) := by
  have hs : ∀ s ∈ segmentOutput
      ('O' :: 'n' :: 'e' :: '.' :: ' ' :: 'T' :: 'w' :: 'o' :: '.' :: []),
      ∀ c, s.head? = some c → isTerm c = false := by
    intro s hsm c hc
    rw [show segmentOutput
        ('O' :: 'n' :: 'e' :: '.' :: ' ' :: 'T' :: 'w' :: 'o' :: '.' :: []) =
        [('O' :: 'n' :: 'e' :: '.' :: []), ('T' :: 'w' :: 'o' :: '.' :: [])]
      from by decide] at hsm
    rcases List.mem_cons.mp hsm with h1 | h1
    · rw [h1] at hc
      simp only [List.head?] at hc
      have h2 : 'O' = c := by injection hc
      rw [← h2]
      decide
    · have h2 : s = ('T' :: 'w' :: 'o' :: '.' :: []) := by simpa using h1
      rw [h2] at hc
      simp only [List.head?] at hc
      have h3 : 'T' = c := by injection hc
      rw [← h3]
      decide
  exact ⟨hs, C8_conditionalIdempotence _ _ hs⟩

/-- C5: `copyPlainText` uses `navigator.clipboard.writeText` exactly when
the Clipboard API is present, invokes the legacy `fallbackCopyText`
mechanism exactly when the API is absent or its write rejects, always
passes the given text through unchanged, and always performs at least one
attempt (every failure path is caught, so nothing propagates to the
caller). -/
theorem C5_copyPlainTextFallback (env : ClipboardEnv) (text : List Char) :
    copyPlainText env text ≠ [] ∧
    (∀ p ∈ copyPlainText env text, p.2 = text) ∧
    ((CopyMethod.clipboardAPI, text) ∈ copyPlainText env text ↔
      env.clipboardAPIPresent = true) ∧
    ((CopyMethod.execCommandFallback, text) ∈ copyPlainText env text ↔
      (env.clipboardAPIPresent = false ∨ env.writeSucceeds = false)) := by
  obtain ⟨cp, ws⟩ := env
  cases cp <;> cases ws <;> simp [copyPlainText]

/-- C10: the Alt+A toggle target maps `Casual ↦ Formal`, `Formal ↦
Casual` and every other value to `Casual`, so one toggle always lands on
`Casual` or `Formal` and two toggles from either of those restore it; an
Alt+A press always changes the element value to the target and dispatches
a change event; and `selectTone` with the already-selected tone leaves the
value unchanged and dispatches no event. -/
theorem C10_toneToggle (v t : List Char) :
    (toneToggleTarget v = casualTone ∨ toneToggleTarget v = formalTone) ∧
    toneToggleTarget casualTone = formalTone ∧
    toneToggleTarget formalTone = casualTone ∧
    (v ≠ casualTone → v ≠ formalTone → toneToggleTarget v = casualTone) ∧
    toneToggleTarget (toneToggleTarget casualTone) = casualTone ∧
    toneToggleTarget (toneToggleTarget formalTone) = formalTone ∧
    altAToneStep v = (some (toneToggleTarget v), true) ∧
    selectTone (some t) t = (some t, false) := by
  refine ⟨?_, by decide, by decide, ?_, by decide, by decide, ?_, ?_⟩
  case refine_2 =>
    intro h1 h2
    simp [toneToggleTarget, h1, h2]
  · by_cases h1 : v = casualTone
    · right; simp [toneToggleTarget, h1]
    · by_cases h2 : v = formalTone
      · left; simp [toneToggleTarget, h1, h2]
      · left; simp [toneToggleTarget, h1, h2]
  · unfold altAToneStep
    by_cases h1 : v = casualTone
    · subst h1; decide
    · by_cases h2 : v = formalTone
      · subst h2; decide
      · have ht : toneToggleTarget v = casualTone := by
          simp [toneToggleTarget, h1, h2]
        rw [ht]
        simp [selectTone, h1, ht]
  · simp [selectTone]

theorem C10_toneToggle_witness :
    ('S' :: 't' :: 'd' :: []) ≠ casualTone ∧
    ('S' :: 't' :: 'd' :: []) ≠ formalTone ∧
    toneToggleTarget ('S' :: 't' :: 'd' :: []) = casualTone :=
  ⟨by decide, by decide,
    (C10_toneToggle ('S' :: 't' :: 'd' :: []) casualTone).2.2.2.1
      (by decide) (by decide)⟩

/-- C7: the global keydown handler acts on exactly the three Alt
shortcuts: Alt+Z copies the trimmed translated text (when present and
non-empty), Alt+S clicks the language-swap button (when present), Alt+A
requests the toggled tone; each of those calls `preventDefault`, and any
other event performs no action and does not call `preventDefault`. -/
theorem C7_keydownShortcuts (env : PageEnv) (ev : KeyEvent) :
    (∀ u, env.translatedText = some u → u ≠ [] →
      ev.altKey = true → ev.key = zKey →
      handleKeydown env ev = ⟨[PageAction.copyText (trim u)], true⟩) ∧
    (env.swapButtonPresent = true → ev.altKey = true → ev.key = sKey →
      handleKeydown env ev = ⟨[PageAction.clickSwap], true⟩) ∧
    (∀ v, env.toneValue = some v → ev.altKey = true → ev.key = aKey →
      handleKeydown env ev = ⟨[PageAction.setToneRequest (toneToggleTarget v)], true⟩) ∧
    (¬(ev.altKey = true ∧ (ev.key = zKey ∨ ev.key = sKey ∨ ev.key = aKey)) →
      handleKeydown env ev = ⟨[], false⟩) := by
  refine ⟨?_, ?_, ?_, ?_⟩
  · intro u hu hne halt hkey
    have hzs : ¬(zKey = sKey) := by decide
    have hza : ¬(zKey = aKey) := by decide
    simp [handleKeydown, halt, hkey, hu, hne, hzs, hza]
  · intro hsw halt hkey
    have hsz : ¬(sKey = zKey) := by decide
    have hsa : ¬(sKey = aKey) := by decide
    simp [handleKeydown, halt, hkey, hsw, hsz, hsa]
  · intro v hv halt hkey
    have haz : ¬(aKey = zKey) := by decide
    have has : ¬(aKey = sKey) := by decide
    simp [handleKeydown, halt, hkey, hv, haz, has]
  · intro hmiss
    push_neg at hmiss
    by_cases halt : ev.altKey = true
    · obtain ⟨hz, hs, ha⟩ := hmiss halt
      simp [handleKeydown, halt, hz, hs, ha]
    · have halt2 : ev.altKey = false := by
        cases h : ev.altKey
        · rfl
        · exact absurd h halt
      simp [handleKeydown, halt2]

/-- C3: when the current input HTML and output text both equal the
retained last-processed values, `processTranslationLineBreaks` returns
immediately: nothing is written, no events are dispatched, no retry is
scheduled, nothing is logged, and the retained state is unchanged. -/
theorem C3_redundancyGuard (st : ScriptState) (dom : DomState)
    (hin : dom.inputHTML = some st.lastProcessedInputHTML)
    (hout : dom.outputText = some st.lastProcessedOutputText) :
    processTranslationLineBreaks st dom = ⟨st, none, false, none, 0, 0⟩ := by
  obtain ⟨iH, oT⟩ := dom
  simp only at hin hout
  subst hin; subst hout
  simp [processTranslationLineBreaks]

/-- C6: when the input element or the output element is missing,
`processTranslationLineBreaks` modifies nothing (no write, no events, no
warnings, state unchanged) and schedules itself to retry after 500
milliseconds. -/
theorem C6_missingElementRetry (st : ScriptState) (dom : DomState)
    (h : dom.inputHTML = none ∨ dom.outputText = none) :
    processTranslationLineBreaks st dom = ⟨st, none, false, some 500, 0, 0⟩ := by
  obtain ⟨iH, oT⟩ := dom
  rcases h with h | h <;> simp only at h <;> subst h
  · rfl
  · cases iH with
    | none => rfl
    | some v => rfl

/-- C4: the output node is written only when the computed text differs
from its current text: whenever a write (and the accompanying event
dispatch) happens, the written text is different from the node's current
text, and when nothing is written no events are dispatched. -/
theorem C4_writeOnlyOnChange (st : ScriptState) (dom : DomState)
    (cur : List Char) (hout : dom.outputText = some cur) :
    ((processTranslationLineBreaks st dom).written = none →
      (processTranslationLineBreaks st dom).eventsDispatched = false) ∧
    (∀ t, (processTranslationLineBreaks st dom).written = some t →
      t ≠ cur ∧ (processTranslationLineBreaks st dom).eventsDispatched = true) := by
  obtain ⟨iH, oT⟩ := dom
  simp only at hout
  subst hout
  cases iH with
  | none =>
    constructor
    · intro; rfl
    · intro t ht
      exact absurd ht (by simp [processTranslationLineBreaks])
  | some inHTML =>
    simp only [processTranslationLineBreaks]
    by_cases hguard : inHTML = st.lastProcessedInputHTML ∧
        cur = st.lastProcessedOutputText
    · rw [if_pos hguard]
      exact ⟨fun _ => rfl, fun t ht => absurd ht (by simp)⟩
    · rw [if_neg hguard]
      by_cases hblank : (inputLinesOf inHTML).all (fun l => trim l = [])
      · rw [if_pos hblank]
        by_cases hcur : cur ≠ []
        · rw [if_pos hcur]
          refine ⟨fun hc => absurd hc (by simp), fun t ht => ?_⟩
          simp only at ht
          injection ht with ht
          subst ht
          exact ⟨fun hc => hcur hc.symm, rfl⟩
        · rw [if_neg hcur]
          exact ⟨fun _ => rfl, fun t ht => absurd ht (by simp)⟩
      · rw [if_neg hblank]
        by_cases hne : cur ≠ processedOutputOf inHTML cur
        · rw [if_pos hne]
          refine ⟨fun hc => absurd hc (by simp), fun t ht => ?_⟩
          simp only at ht
          injection ht with ht
          subst ht
          exact ⟨fun hc => hne hc.symm, rfl⟩
        · rw [if_neg hne]
          exact ⟨fun _ => rfl, fun t ht => absurd ht (by simp)⟩

/-- C9: when every input line is blank after `<br>` replacement,
`processTranslationLineBreaks` sets the output text to the empty string
exactly when it is not already empty (dispatching the notification events
on that write), performs no segmentation work (no alignment warnings),
and never writes non-empty text. -/
theorem C9_allBlankInput (st : ScriptState) (dom : DomState)
    (inHTML cur : List Char)
    (hin : dom.inputHTML = some inHTML) (hout : dom.outputText = some cur)
    (hguard : ¬(inHTML = st.lastProcessedInputHTML ∧
      cur = st.lastProcessedOutputText))
    (hblank : (inputLinesOf inHTML).all (fun l => trim l = [])) :
    (cur ≠ [] →
      processTranslationLineBreaks st dom =
        ⟨⟨inHTML, cur⟩, some [], true, none, 0, 0⟩) ∧
    (cur = [] →
      processTranslationLineBreaks st dom =
        ⟨⟨inHTML, cur⟩, none, false, none, 0, 0⟩) ∧
    (∀ t, (processTranslationLineBreaks st dom).written = some t → t = []) := by
  obtain ⟨iH, oT⟩ := dom
  simp only at hin hout
  subst hin; subst hout
  simp only [processTranslationLineBreaks, if_neg hguard, if_pos hblank]
  by_cases hcur : cur ≠ []
  · rw [if_pos hcur]
    refine ⟨fun _ => rfl, fun hc => absurd hc hcur, fun t ht => ?_⟩
    simp only at ht
    injection ht with ht
    exact ht.symm
  · rw [if_neg hcur]
    refine ⟨fun hc => absurd hc hcur, fun _ => rfl, fun t ht => ?_⟩
    exact absurd ht (by simp)

/-- Counterexample to C1 as stated: with input HTML `"a"` (one line) and
output text `"x\ny "`, the output has no sentence terminator, so the
single segment spans the embedded newline; the routine writes `"x\ny"`,
which has two lines for one input line. -/
theorem C1_claim_counterexample :
    (splitNl (processedOutputOf ('a' :: [])
      ('x' :: '\n' :: 'y' :: ' ' :: []))).length ≠
      (inputLinesOf ('a' :: [])).length ∧
    (processTranslationLineBreaks ⟨[], []⟩
      ⟨some ('a' :: []), some ('x' :: '\n' :: 'y' :: ' ' :: [])⟩).written =
      some ('x' :: '\n' :: 'y' :: []) := by decide

theorem C1_lineStructure_witness :
    (∀ s ∈ segmentOutput "One. Two.".toList, '\n' ∉ s) ∧
    (splitNl (processedOutputOf "a<br>b".toList "One. Two.".toList)).length =
      (inputLinesOf "a<br>b".toList).length :=
  ⟨by decide, (C1_lineStructure ⟨[], []⟩
    ⟨some "a<br>b".toList, some "One. Two.".toList⟩
    "a<br>b".toList "One. Two.".toList rfl rfl (by decide) (by decide)
    (by decide)).2.1⟩

theorem C2_fewerSegmentsPlaceholders_witness :
    (segmentOutput "One.".toList).length <
      nonBlankCount (inputLinesOf "a<br>b<br>c".toList) ∧
    (processTranslationLineBreaks ⟨[], []⟩
      ⟨some "a<br>b<br>c".toList, some "One.".toList⟩).mismatchWarnings =
      nonBlankCount (inputLinesOf "a<br>b<br>c".toList) -
        (segmentOutput "One.".toList).length :=
  ⟨by decide, (C2_fewerSegmentsPlaceholders ⟨[], []⟩
    ⟨some "a<br>b<br>c".toList, some "One.".toList⟩
    "a<br>b<br>c".toList "One.".toList rfl rfl (by decide) (by decide)).1⟩

theorem C3_redundancyGuard_witness :
    processTranslationLineBreaks ⟨['x'], ['y']⟩ ⟨some ['x'], some ['y']⟩ =
      ⟨⟨['x'], ['y']⟩, none, false, none, 0, 0⟩ :=
  C3_redundancyGuard ⟨['x'], ['y']⟩ ⟨some ['x'], some ['y']⟩ rfl rfl

theorem C4_writeOnlyOnChange_witness :
    ('b' :: []) ≠ ('b' :: ' ' :: []) ∧
    (processTranslationLineBreaks ⟨[], []⟩
      ⟨some ['a'], some ['b', ' ']⟩).eventsDispatched = true :=
  (C4_writeOnlyOnChange ⟨[], []⟩ ⟨some ['a'], some ['b', ' ']⟩
    ['b', ' '] rfl).2 ('b' :: []) (by decide)

theorem C6_missingElementRetry_witness :
    processTranslationLineBreaks ⟨[], []⟩ ⟨none, some []⟩ =
      ⟨⟨[], []⟩, none, false, some 500, 0, 0⟩ :=
  C6_missingElementRetry ⟨[], []⟩ ⟨none, some []⟩ (Or.inl rfl)

theorem C7_keydownShortcuts_witness :
    handleKeydown ⟨some ['h', 'i'], true, some casualTone⟩ ⟨true, zKey⟩ =
      ⟨[PageAction.copyText (trim ['h', 'i'])], true⟩ :=
  (C7_keydownShortcuts ⟨some ['h', 'i'], true, some casualTone⟩
    ⟨true, zKey⟩).1 ['h', 'i'] rfl (by decide) rfl rfl

theorem C9_allBlankInput_witness :
    processTranslationLineBreaks ⟨[], []⟩ ⟨some "<br>".toList, some ['x']⟩ =
      ⟨⟨"<br>".toList, ['x']⟩, some [], true, none, 0, 0⟩ :=
  (C9_allBlankInput ⟨[], []⟩ ⟨some "<br>".toList, some ['x']⟩
    "<br>".toList ['x'] rfl rfl (by decide) (by decide)).1 (by decide)

/-- Counterexample to C8 as stated: with input HTML `"x"` and output text
`"! .a"`, segmentation yields `["." , "a"]` (the first segment's
non-terminator part is all whitespace and trims away, leaving a bare
terminator), the first pass produces `". a"`, and a second pass over that
result drops the leading dot and produces `"a"`: the resegmentation is
not idempotent on its own output. -/
theorem C8_claim_counterexample :
    processedOutputOf ('x' :: [])
      (processedOutputOf ('x' :: []) ('!' :: ' ' :: '.' :: 'a' :: [])) ≠
      processedOutputOf ('x' :: []) ('!' :: ' ' :: '.' :: 'a' :: []) ∧
    processedOutputOf ('x' :: []) ('!' :: ' ' :: '.' :: 'a' :: []) =
      ('.' :: ' ' :: 'a' :: []) ∧
    processedOutputOf ('x' :: []) ('.' :: ' ' :: 'a' :: []) =
      ('a' :: []) := by decide

end Bing
